import Mathlib

/-!
Verification of the core grid ("Map") component of the aoclib repository:
coordinate model, indexing, projection, parsing, geometric transforms,
BFS reachability and the shortest-path search, as shallowly embedded
Lean definitions translated from `src/geometry/map/*.rs` and
`src/geometry/direction.rs`.
-/

namespace Aoclib

/-- Integer 2-vector. Modelled from the spec: `src/geometry/point.rs` is not
among the sources; the spec (§3) gives componentwise arithmetic, a total
lexicographic order used as the A* tie-break, and `manhattan() = |x| + |y|`.
Coordinates are `i32` in the source; we use `Int`, relying on the documented
precondition that all coordinates fit in a 32-bit signed integer. -/
structure Point where
  x : Int
  y : Int
deriving DecidableEq

instance : Add Point := ⟨fun p q => ⟨p.x + q.x, p.y + q.y⟩⟩

instance : Sub Point := ⟨fun p q => ⟨p.x - q.x, p.y - q.y⟩⟩

/-- Manhattan norm of a point. The source computes `x.abs() + y.abs()` as
`i32` and the call sites cast the (nonnegative) result to `u32`; we return
the natural number directly. Modelled from the spec (§3). -/
def Point.manhattan (p : Point) : Nat := p.x.natAbs + p.y.natAbs

/-- Total order on points used as a deterministic tie-break. Modelled from
the spec (§3): compare one coordinate then the other; we fix x-then-y. -/
def Point.cmp (p q : Point) : Ordering := (compare p.x q.x).then (compare p.y q.y)

/-- Counter-clockwise quarter rotation of a point about the origin.
Modelled from the spec (§4.5) and the rotation test vectors in
`map.rs`: `(x, y) ↦ (-y, x)`. -/
def Point.rotate_left (p : Point) : Point := ⟨-p.y, p.x⟩

/-- Clockwise quarter rotation of a point about the origin.
Modelled from the spec (§4.5): `(x, y) ↦ (y, -x)`. -/
def Point.rotate_right (p : Point) : Point := ⟨p.y, -p.x⟩

/-- Four-way orthogonal direction, from `src/geometry/direction.rs`. -/
inductive Direction where
  | Right
  | Left
  | Up
  | Down
deriving DecidableEq

/-- Deltas of a direction: `Right` is `+x` and `Up` is `+y`. -/
def Direction.deltas : Direction → Int × Int
  | .Up => (0, 1)
  | .Down => (0, -1)
  | .Right => (1, 0)
  | .Left => (-1, 0)

/-- Adding a direction to a point steps one tile that way (the source's
`Add<Direction> for Point`). -/
instance : HAdd Point Direction Point :=
  ⟨fun p d => ⟨p.x + d.deltas.1, p.y + d.deltas.2⟩⟩

def Direction.reverse : Direction → Direction
  | .Up => .Down
  | .Left => .Right
  | .Down => .Up
  | .Right => .Left

/-- Iteration order of `Direction::iter()` in the source. -/
def Direction.list : List Direction := [.Up, .Down, .Left, .Right]

/-- Tri-state passability of a tile, from `src/geometry/map/traversable.rs`. -/
inductive Traversable where
  | Obstructed
  | Free
  | Halt
deriving DecidableEq

/-- A dense row-major tile grid with an offset lower-left corner, from
`src/geometry/map/map.rs`. The `Vec<Tile>` becomes a `List`. -/
structure Map (Tile : Type) where
  tiles : List Tile
  width : Nat
  height : Nat
  offset : Point
deriving DecidableEq

namespace Map

variable {Tile : Type}

def low_x (m : Map Tile) : Int := m.offset.x

def high_x (m : Map Tile) : Int := m.offset.x + (m.width : Int) - 1

def low_y (m : Map Tile) : Int := m.offset.y

def high_y (m : Map Tile) : Int := m.offset.y + (m.height : Int) - 1

def bottom_left (m : Map Tile) : Point := ⟨m.low_x, m.low_y⟩

def top_left (m : Map Tile) : Point := ⟨m.low_x, m.high_y⟩

def bottom_right (m : Map Tile) : Point := ⟨m.high_x, m.low_y⟩

def top_right (m : Map Tile) : Point := ⟨m.high_x, m.high_y⟩

/-- Bounds check from the source's `in_bounds`. -/
def in_bounds (m : Map Tile) (p : Point) : Bool :=
  decide (m.low_x ≤ p.x) && decide (m.low_y ≤ p.y) &&
    decide (p.x ≤ m.high_x) && decide (p.y ≤ m.high_y)

/-- Linear index of a point, from the source's `point2index`:
`(x - offset.x) + (y - offset.y) * width`. The source performs the two
subtractions on `i32` and casts each to `usize` with a wrapping cast, so a
negative difference becomes an index astronomically beyond any real buffer
and the subsequent buffer access panics; we model that case as `none`. -/
def point2index? (m : Map Tile) (p : Point) : Option Nat :=
  if 0 ≤ p.x - m.offset.x ∧ 0 ≤ p.y - m.offset.y then
    some ((p.x - m.offset.x).toNat + (p.y - m.offset.y).toNat * m.width)
  else none

/-- Point of a linear index, from the source's `index2point`:
`(idx % width, idx / width) + offset`. -/
def index2point (m : Map Tile) (idx : Nat) : Point :=
  (⟨(idx % m.width : Nat), (idx / m.width : Nat)⟩ : Point) + m.offset

/-- Reading a tile through `Index<Point> for Map`. The source first asserts
`point.x >= 0 && point.y >= 0` (a panic, modelled as `none`), then indexes
the buffer at `point2index` (an out-of-range access panics, modelled as
`none`). -/
def get? (m : Map Tile) (p : Point) : Option Tile :=
  if 0 ≤ p.x ∧ 0 ≤ p.y then
    (m.point2index? p).bind (fun i => m.tiles[i]?)
  else none

/-- Procedural construction with an offset origin, from the source's
`procedural_offset`: tile at linear index `idx` is `f (index2point idx)`. -/
def procedural_offset (offset : Point) (width height : Nat) (f : Point → Tile) :
    Map Tile :=
  { tiles := (List.range (width * height)).map
      (fun idx => f ((⟨(idx % width : Nat), (idx / width : Nat)⟩ : Point) + offset))
    width := width
    height := height
    offset := offset }

/-- Orthogonal neighbors inside the bounds, from the source's
`orthogonal_adjacencies`: the four directions in `Direction::iter()` order,
filtered by `in_bounds`. -/
def orthogonal_adjacencies (m : Map Tile) (p : Point) : List Point :=
  (Direction.list.map (fun (d : Direction) => p + d)).filter (fun q => m.in_bounds q)

end Map

/-- Loop of the source's `project`: the iterator
`successors(Some(origin), |c| c + (dx, dy)).take_while(in_bounds)`,
truncated to its first `n` items so that the definition is total. -/
def projectAux (inb : Point → Bool) (d : Point) : Point → Nat → List Point
  | _, 0 => []
  | cur, n + 1 => if inb cur then cur :: projectAux inb d (cur + d) n else []

/-- First `n` items of the source's `Map::project(origin, dx, dy)`. -/
def Map.project {Tile : Type} (m : Map Tile) (origin : Point) (dx dy : Int)
    (n : Nat) : List Point :=
  projectAux m.in_bounds ⟨dx, dy⟩ origin n

/-- Point reached after `k` applications of the deltas to the origin. -/
def stepPt (origin : Point) (dx dy : Int) (k : Nat) : Point :=
  ⟨origin.x + k * dx, origin.y + k * dy⟩

/-- Construction-time error taxonomy from `MapConversionErr` in `map.rs`.
The `TileConversion` variant carries the offending cell's raw text together
with the underlying parse failure as its cause; `Io` is an underlying read
failure, not modelled further. -/
inductive MapConversionErr where
  | TileConversion (raw : List Char)
  | NotRectangular
  | Io
deriving DecidableEq

/-- Loop of `Chunks::next` from `tile.rs`, with explicit fuel so that the
definition is structural: each call takes exactly `w` characters; when
fewer than `w` characters remain, `next` returns `None` mid-chunk and the
remainder is silently discarded. One unit of fuel is spent per chunk and
each chunk consumes at least one character, so fuel `s.length` below never
runs out before the source iterator would have stopped. -/
def chunksAux (w : Nat) : Nat → List Char → List (List Char)
  | 0, _ => []
  | fuel + 1, s =>
    if 0 < w ∧ w ≤ s.length then s.take w :: chunksAux w fuel (s.drop w)
    else []

/-- Chunking of a line into display-width cells, from `DisplayWidth::chunks`. -/
def chunks (w : Nat) (s : List Char) : List (List Char) := chunksAux w s.length s

/-- Parsing of one row in `Map::try_from`: each chunk is parsed
independently and the first failure aborts with `TileConversion` carrying
that cell's content. -/
def parseRow {Tile : Type} (parse : List Char → Option Tile) :
    List (List Char) → Except MapConversionErr (List Tile)
  | [] => .ok []
  | c :: cs =>
    match parse c with
    | none => .error (.TileConversion c)
    | some t =>
      match parseRow parse cs with
      | .error e => .error e
      | .ok ts => .ok (t :: ts)

/-- Line loop of `Map::try_from`: parse every line into a row, skipping
rows that come out empty; the first per-tile error aborts the whole parse. -/
def collectRows {Tile : Type} (w : Nat) (parse : List Char → Option Tile) :
    List (List Char) → Except MapConversionErr (List (List Tile))
  | [] => .ok []
  | line :: rest =>
    match parseRow parse (chunks w line) with
    | .error e => .error e
    | .ok row =>
      match collectRows w parse rest with
      | .error e => .error e
      | .ok arr => .ok (if row.isEmpty then arr else row :: arr)

/-- Conversion of a row array to a map, from `From<&[Row]> for Map`: height
is the number of rows, width the length of the first row, and the tiles are
the rows concatenated in storage order. -/
def mapFromRows {Tile : Type} : List (List Tile) → Map Tile
  | [] => ⟨[], 0, 0, ⟨0, 0⟩⟩
  | r :: rs => ⟨(r :: rs).flatten, r.length, (r :: rs).length, ⟨0, 0⟩⟩

/-- Line-oriented text parse from `Map::try_from`: collect the rows, check
rectangularity against the first row, reverse the row order so that row 0
of storage is the bottom input line, and build the map. -/
def tryFromLines {Tile : Type} (w : Nat) (parse : List Char → Option Tile)
    (input : List (List Char)) : Except MapConversionErr (Map Tile) :=
  match collectRows w parse input with
  | .error e => .error e
  | .ok arr =>
    match arr with
    | [] => .ok (mapFromRows ([] : List (List Tile)).reverse)
    | r :: rs =>
      if (r :: rs).all (fun row => row.length = r.length) then
        .ok (mapFromRows (r :: rs).reverse)
      else .error .NotRectangular

/-- Vertical flip from `Map::flip_vertical`: the copy loop writes each cell
`(x, high_y - y)` of a fresh same-shaped map from `(x, low_y + y)`, so the
tile at `(x, y)` of the result is the source tile at
`(x, low_y + high_y - y)`. Every read and write goes through
`Index<Point>`, whose positive-quadrant assertion and buffer bounds `get?`
models; a panic anywhere in the loop is modelled as `none` (the write
targets and the read sources are the same cell rectangle, so the panic
conditions coincide). -/
def Map.flip_vertical {Tile : Type} (m : Map Tile) : Option (Map Tile) :=
  ((List.range (m.width * m.height)).mapM (fun idx =>
      let p := m.index2point idx
      m.get? ⟨p.x, m.low_y + m.high_y - p.y⟩)).map
    (fun ts => ⟨ts, m.width, m.height, m.offset⟩)

/-- Horizontal flip from `Map::flip_horizontal`: the tile at `(x, y)` of
the result is the source tile at `(low_x + high_x - x, y)`; panics are
modelled as for `flip_vertical`. -/
def Map.flip_horizontal {Tile : Type} (m : Map Tile) : Option (Map Tile) :=
  ((List.range (m.width * m.height)).mapM (fun idx =>
      let p := m.index2point idx
      m.get? ⟨m.low_x + m.high_x - p.x, p.y⟩)).map
    (fun ts => ⟨ts, m.width, m.height, m.offset⟩)

/-- Counter-clockwise rotation from `Map::rotate_left`: the source asserts
that the offset is the origin (modelled as `none`), then writes
`rotated[p.rotate_left() + rotated.bottom_right()] = self[p]` for every
point of the source into a fresh map with width and height swapped.
Solving for the target cell `(u, v)` of the rotated map gives the source
cell `(v, height - 1 - u)`; this functional embedding of the scatter loop
enumerates the target cells, which the loop covers exactly once for maps
satisfying the length invariant assumed by the rotation claims. -/
def Map.rotate_left {Tile : Type} (m : Map Tile) : Option (Map Tile) :=
  if m.offset = ⟨0, 0⟩ then
    ((List.range (m.height * m.width)).mapM (fun idx =>
        let u : Int := (idx % m.height : Nat)
        let v : Int := (idx / m.height : Nat)
        m.get? ⟨v, (m.height : Int) - 1 - u⟩)).map
      (fun ts => ⟨ts, m.height, m.width, ⟨0, 0⟩⟩)
  else none

/-- Clockwise rotation from `Map::rotate_right`: as `rotate_left`, with
`rotated[p.rotate_right() + rotated.top_left()] = self[p]`; the target
cell `(u, v)` receives the source cell `(width - 1 - v, u)`. -/
def Map.rotate_right {Tile : Type} (m : Map Tile) : Option (Map Tile) :=
  if m.offset = ⟨0, 0⟩ then
    ((List.range (m.height * m.width)).mapM (fun idx =>
        let u : Int := (idx % m.height : Nat)
        let v : Int := (idx / m.height : Nat)
        m.get? ⟨(m.width : Int) - 1 - v, u⟩)).map
      (fun ts => ⟨ts, m.height, m.width, ⟨0, 0⟩⟩)
  else none

/-- Concrete 1-by-1 map with a negative offset, on which the flip loops hit
the positive-quadrant indexing assertion. -/
def mapNegOff : Map Unit := ⟨[()], 1, 1, ⟨-1, 0⟩⟩

/-- State of the BFS loop in `reachable_from_ctx`: the pending queue, the
set of marked indices of the visited bitset, and — as the observable the
claims speak about — the list of visitor invocations in order. -/
structure BfsState (Tile : Type) where
  queue : List Point
  visited : List Nat
  visits : List (Point × Tile)
deriving DecidableEq

/-- Outcome of one iteration of the BFS loop: the loop finished (empty
queue, or the visitor returned `true`), panicked on an indexing
precondition, or continues with a new state. -/
inductive BfsStep (Tile : Type) where
  | done (s : BfsState Tile)
  | panicked (s : BfsState Tile)
  | cont (s : BfsState Tile)
deriving DecidableEq

/-- Neighbor filter of the `Free` branch of `reachable_from_ctx`: each
in-bounds orthogonal neighbor is kept when its bit in the visited bitset is
unset; reading the bit panics (modelled `none`) when the index computation
wraps or falls outside the bitset, whose length is the tile buffer's. -/
def filterFresh {Tile : Type} (m : Map Tile) (visited : List Nat) :
    List Point → Option (List Point)
  | [] => some []
  | q :: qs =>
    match m.point2index? q with
    | none => none
    | some i =>
      if i < m.tiles.length then
        match filterFresh m visited qs with
        | none => none
        | some rest => some (if i ∈ visited then rest else q :: rest)
      else none

/-- One iteration of the BFS loop of `reachable_from_ctx` (map.rs lines
844-869): pop the front of the queue; skip it if its bit is already set;
otherwise mark it, read its tile through `Index<Point>`, classify it with
the context conversion; an `Obstructed` tile is neither visited nor
expanded; otherwise the visitor runs (`true` stops the whole walk) and only
a `Free` tile enqueues its in-bounds, not yet visited orthogonal
neighbors. -/
def bfsStep {Tile Ctx : Type} (m : Map Tile)
    (conv : Tile → Point → Ctx → Traversable) (ctx : Ctx)
    (visit : Point → Tile → Bool) (s : BfsState Tile) : BfsStep Tile :=
  match s.queue with
  | [] => .done s
  | point :: rest =>
    match m.point2index? point with
    | none => .panicked s
    | some index =>
      if index < m.tiles.length then
        if index ∈ s.visited then .cont ⟨rest, s.visited, s.visits⟩
        else
          match m.get? point with
          | none => .panicked ⟨rest, index :: s.visited, s.visits⟩
          | some tile =>
            if conv tile point ctx = .Obstructed then
              .cont ⟨rest, index :: s.visited, s.visits⟩
            else
              if visit point tile then
                .done ⟨rest, index :: s.visited, s.visits ++ [(point, tile)]⟩
              else
                if conv tile point ctx = .Free then
                  match filterFresh m (index :: s.visited)
                      (m.orthogonal_adjacencies point) with
                  | none =>
                    .panicked ⟨rest, index :: s.visited,
                      s.visits ++ [(point, tile)]⟩
                  | some ns =>
                    .cont ⟨rest ++ ns, index :: s.visited,
                      s.visits ++ [(point, tile)]⟩
                else
                  .cont ⟨rest, index :: s.visited,
                    s.visits ++ [(point, tile)]⟩
      else .panicked s

/-- Outcome of a fuelled BFS run: out of fuel (a model artifact: the fuel
below always suffices), panicked, or the loop exited normally. -/
inductive BfsOut (Tile : Type) where
  | out (s : BfsState Tile)
  | panicked (s : BfsState Tile)
  | finished (s : BfsState Tile)
deriving DecidableEq

def bfsRun {Tile Ctx : Type} (m : Map Tile)
    (conv : Tile → Point → Ctx → Traversable) (ctx : Ctx)
    (visit : Point → Tile → Bool) : Nat → BfsState Tile → BfsOut Tile
  | 0, s => .out s
  | fuel + 1, s =>
    match bfsStep m conv ctx visit s with
    | .done s1 => .finished s1
    | .panicked s1 => .panicked s1
    | .cont s1 => bfsRun m conv ctx visit fuel s1

/-- Initial BFS state: the start point is enqueued once, unconditionally. -/
def initBfs {Tile : Type} (point : Point) : BfsState Tile := ⟨[point], [], []⟩

/-- Fuel that always outlasts the loop: each iteration either consumes a
queue entry without marking, or marks a fresh index (at most
`tiles.length` of them) while enqueueing at most four neighbors. -/
def bfsFuel {Tile : Type} (m : Map Tile) : Nat := 5 * m.tiles.length + 2

/-- BFS reachability walk, `Map::reachable_from_ctx`. -/
def reachable_from_ctx {Tile Ctx : Type} (m : Map Tile)
    (conv : Tile → Point → Ctx → Traversable) (ctx : Ctx) (point : Point)
    (visit : Point → Tile → Bool) : BfsOut Tile :=
  bfsRun m conv ctx visit (bfsFuel m) (initBfs point)

def bfsOutState {Tile : Type} : BfsOut Tile → BfsState Tile
  | .out s => s
  | .panicked s => s
  | .finished s => s

def isPanicked {Tile : Type} : BfsOut Tile → Bool
  | .panicked _ => true
  | _ => false

/-- Logical cell content at a point: the row-major buffer entry the point
designates, independent of the positive-quadrant assertion that the
`Index<Point>` accessor additionally imposes. Used to state what a tile
is classified as; `get?` models the accessor the algorithms actually
call. -/
def Map.tileAt? {Tile : Type} (m : Map Tile) (p : Point) : Option Tile :=
  (m.point2index? p).bind (fun i => m.tiles[i]?)

/-- A* state node from `a_star.rs`: a g-cost (`u32` in the source; costs in
any terminating run stay far below the 32-bit bound, so `Nat` is used) and
a position. -/
structure AStarNode where
  cost : Nat
  position : Point
deriving DecidableEq

/-- Ordering of `Ord for AStarNode`: costs compared flipped, so that the
max-heap `BinaryHeap` pops the minimum cost; ties compare positions. -/
def AStarNode.cmp (a b : AStarNode) : Ordering :=
  (compare b.cost a.cost).then (Point.cmp a.position b.position)

/-- Greatest node of a nonempty collection with respect to
`AStarNode.cmp`, scanning left to right. -/
def heapMax : AStarNode → List AStarNode → AStarNode
  | best, [] => best
  | best, x :: xs => heapMax (if AStarNode.cmp x best = .gt then x else best) xs

/-- Pop of the `BinaryHeap` open set, modelled on a list: remove and return
the greatest element with respect to the source's `Ord` (the element of
minimum cost, largest position on ties); positions in the open set are
pairwise distinct, so the greatest element is unique. -/
def popMax : List AStarNode → Option (AStarNode × List AStarNode)
  | [] => none
  | x :: xs => some (heapMax x xs, (x :: xs).erase (heapMax x xs))

/-- Lookup in an association-list model of `HashMap<Point, _>`. -/
def alGet {β : Type} : List (Point × β) → Point → Option β
  | [], _ => none
  | e :: es, p => if e.1 = p then some e.2 else alGet es p

/-- Insert-or-replace in the association-list model of `HashMap`. -/
def alInsert {β : Type} (l : List (Point × β)) (p : Point) (b : β) :
    List (Point × β) :=
  (p, b) :: l.filter (fun e => decide (e.1 ≠ p))

/-- Removal from the association-list model of `HashMap`. -/
def alRemove {β : Type} (l : List (Point × β)) (p : Point) :
    List (Point × β) :=
  l.filter (fun e => decide (e.1 ≠ p))

/-- Path reconstruction loop of `navigate_ctx`: repeatedly remove the
current point from `came_from`, collecting the stored direction and moving
to the stored predecessor, until the map has no entry for the current
point. Each successful step removes one entry, so the fuel below never
runs out before the source loop would have stopped. -/
def reconstructAux : Nat → List (Point × (Direction × Point)) → Point →
    List Direction
  | 0, _, _ => []
  | fuel + 1, F, current =>
    match alGet F current with
    | none => []
    | some dp => dp.1 :: reconstructAux fuel (alRemove F current) dp.2

def reconstruct (F : List (Point × (Direction × Point))) (current : Point) :
    List Direction :=
  reconstructAux (F.length + 1) F current

/-- State of the `navigate_ctx` loop: open set, predecessor map, g-score
map, and the f-score map `total_cost_guess`, which the source fills in but
never consults again. -/
structure NavState where
  open_set : List AStarNode
  came_from : List (Point × (Direction × Point))
  cheapest_path_cost : List (Point × Nat)
  total_cost_guess : List (Point × Nat)
deriving DecidableEq

/-- Outcome of one iteration of the `navigate_ctx` loop. -/
inductive NavRes where
  | ret (r : Option (List Direction))
  | panicked
  | cont (s : NavState)
deriving DecidableEq

/-- Neighbor loop of `navigate_ctx` (map.rs lines 915-950): for each of the
four directions, skip the neighbor when out of bounds, read its tile
through `Index<Point>` (panic modelled `none`), skip it when classified
`Obstructed`; otherwise relax: when `cost + 1` beats the recorded cheapest
cost (absent counts as `u32::MAX`), record predecessor and direction,
update the g and f maps, and push the neighbor unless the open set already
holds its position. -/
def relaxNeighbors {Tile Ctx : Type} (m : Map Tile)
    (conv : Tile → Point → Ctx → Traversable) (ctx : Ctx) (goal : Point)
    (cost : Nat) (position : Point) :
    List Direction → NavState → Option NavState
  | [], s => some s
  | dir :: dirs, s =>
    let neighbor := position + dir
    if m.in_bounds neighbor then
      match m.get? neighbor with
      | none => none
      | some tile =>
        match conv tile neighbor ctx with
        | Traversable.Obstructed =>
          relaxNeighbors m conv ctx goal cost position dirs s
        | Traversable.Free | Traversable.Halt =>
          let tentative := cost + 1
          let better := match alGet s.cheapest_path_cost neighbor with
            | none => true
            | some c => decide (tentative < c)
          if better then
            let s1 : NavState :=
              { open_set := s.open_set
                came_from := alInsert s.came_from neighbor (dir, position)
                cheapest_path_cost :=
                  alInsert s.cheapest_path_cost neighbor tentative
                total_cost_guess := alInsert s.total_cost_guess neighbor
                  (tentative + Point.manhattan (goal - neighbor)) }
            let s2 : NavState :=
              if s.open_set.any (fun e => decide (e.position = neighbor)) then s1
              else { s1 with
                open_set := s1.open_set ++ [⟨tentative, neighbor⟩] }
            relaxNeighbors m conv ctx goal cost position dirs s2
          else relaxNeighbors m conv ctx goal cost position dirs s
    else relaxNeighbors m conv ctx goal cost position dirs s

/-- One iteration of the `navigate_ctx` loop: pop the best open node; an
empty open set returns `None`; reaching the goal reconstructs and returns
the reversed direction list; otherwise relax the four neighbors. -/
def navStep {Tile Ctx : Type} (m : Map Tile)
    (conv : Tile → Point → Ctx → Traversable) (ctx : Ctx) (goal : Point)
    (s : NavState) : NavRes :=
  match popMax s.open_set with
  | none => .ret none
  | some (n, rest) =>
    if n.position = goal then
      .ret (some (reconstruct s.came_from goal).reverse)
    else
      match relaxNeighbors m conv ctx goal n.cost n.position Direction.list
          { s with open_set := rest } with
      | none => .panicked
      | some s1 => .cont s1

/-- Outcome of a fuelled run of the `navigate_ctx` loop. -/
inductive NavOut where
  | out
  | panicked
  | ret (r : Option (List Direction))
deriving DecidableEq

def navRun {Tile Ctx : Type} (m : Map Tile)
    (conv : Tile → Point → Ctx → Traversable) (ctx : Ctx) (goal : Point) :
    Nat → NavState → NavOut
  | 0, _ => .out
  | fuel + 1, s =>
    match navStep m conv ctx goal s with
    | .ret r => .ret r
    | .panicked => .panicked
    | .cont s1 => navRun m conv ctx goal fuel s1

/-- Initial `navigate_ctx` state: the start node is pushed with cost 0, its
g-score is 0 and its f-score is its Manhattan distance to the goal. -/
def initNav (frm goal : Point) : NavState :=
  { open_set := [⟨0, frm⟩]
    came_from := []
    cheapest_path_cost := [(frm, 0)]
    total_cost_guess := [(frm, Point.manhattan (goal - frm))] }

/-- Fuel that always outlasts the loop: every continuing iteration settles
one more position, and at most `width * height + 1` positions can ever be
settled. -/
def navFuel {Tile : Type} (m : Map Tile) : Nat := m.width * m.height + 3

/-- Shortest-path search, `Map::navigate_ctx`. -/
def navigate_ctx {Tile Ctx : Type} (m : Map Tile)
    (conv : Tile → Point → Ctx → Traversable) (ctx : Ctx)
    (frm goal : Point) : NavOut :=
  navRun m conv ctx goal (navFuel m) (initNav frm goal)

/-- Entering a point is allowed when it is in bounds and its cell is
classified `Free` or `Halt` — never `Obstructed`. -/
def stepOK {Tile Ctx : Type} (m : Map Tile)
    (conv : Tile → Point → Ctx → Traversable) (ctx : Ctx) (p : Point) :
    Prop :=
  m.in_bounds p = true ∧ ∃ t, m.tileAt? p = some t ∧
    (conv t p ctx = Traversable.Free ∨ conv t p ctx = Traversable.Halt)

/-- Validity of a direction sequence: replaying the directions from `p`
lands on `q` and every step enters an in-bounds, non-`Obstructed` tile
(the start tile is never consulted). -/
def pathOK {Tile Ctx : Type} (m : Map Tile)
    (conv : Tile → Point → Ctx → Traversable) (ctx : Ctx) :
    Point → List Direction → Point → Prop
  | p, [], q => p = q
  | p, d :: ds, q => stepOK m conv ctx (p + d) ∧ pathOK m conv ctx (p + d) ds q

/-- Positions of the nodes of an open set. -/
def posList (l : List AStarNode) : List Point := l.map AStarNode.position

/-- Keys of an association list. -/
def alKeys {β : Type} (l : List (Point × β)) : List Point := l.map Prod.fst

/-- Settled positions of a `navigate_ctx` state: the positions that carry a
g-score but are no longer in the open set — exactly the positions the loop
has popped and processed. -/
def closedPts (S : NavState) : List Point :=
  (alKeys S.cheapest_path_cost).filter
    (fun p => decide (p ∉ posList S.open_set))

/-- States the `navigate_ctx` loop can reach from its initial state. -/
inductive NavReach {Tile Ctx : Type} (m : Map Tile)
    (conv : Tile → Point → Ctx → Traversable) (ctx : Ctx)
    (frm goal : Point) : NavState → Prop where
  | init : NavReach m conv ctx frm goal (initNav frm goal)
  | step {s s1 : NavState} : NavReach m conv ctx frm goal s →
      navStep m conv ctx goal s = .cont s1 → NavReach m conv ctx frm goal s1

/-- Loop invariant of `navigate_ctx`. The fields say: open-set positions
are distinct; every open node's priority is its recorded g-score, and its
recorded f-score is that priority plus its Manhattan distance to the goal;
the start has g-score 0; open priorities pairwise differ by at most one
step; every predecessor edge is a valid step whose g-scores differ by
exactly one; the predecessor map holds exactly the non-start scored
positions; every g-score is the length of an actual valid path; settled
g-scores are minimal over all valid paths; every step off a settled
position is scored within one of it; settled g-scores bound open
priorities from below; the goal is not settled; every scored position is
the start or in bounds; and scored positions are distinct. -/
structure NavInv {Tile Ctx : Type} (m : Map Tile)
    (conv : Tile → Point → Ctx → Traversable) (ctx : Ctx)
    (frm goal : Point) (S : NavState) : Prop where
  nodupO : (posList S.open_set).Nodup
  openCheap : ∀ n ∈ S.open_set,
    alGet S.cheapest_path_cost n.position = some n.cost
  openGuess : ∀ n ∈ S.open_set, alGet S.total_cost_guess n.position =
    some (n.cost + Point.manhattan (goal - n.position))
  frmCheap : alGet S.cheapest_path_cost frm = some 0
  spread : ∀ x ∈ S.open_set, ∀ y ∈ S.open_set, x.cost ≤ y.cost + 1
  edges : ∀ p d q, alGet S.came_from p = some (d, q) →
    p = q + d ∧ stepOK m conv ctx p ∧
      ∃ cq, alGet S.cheapest_path_cost q = some cq ∧
        alGet S.cheapest_path_cost p = some (cq + 1)
  keysCF : ∀ p, p ∈ alKeys S.came_from ↔
    p ∈ alKeys S.cheapest_path_cost ∧ p ≠ frm
  reach : ∀ p c, alGet S.cheapest_path_cost p = some c →
    ∃ ds, pathOK m conv ctx frm ds p ∧ ds.length = c
  closedOpt : ∀ p c, p ∈ closedPts S →
    alGet S.cheapest_path_cost p = some c →
    ∀ ds, pathOK m conv ctx frm ds p → c ≤ ds.length
  frontier : ∀ p cp, p ∈ closedPts S →
    alGet S.cheapest_path_cost p = some cp →
    ∀ d : Direction, stepOK m conv ctx (p + d) →
      ∃ c2, alGet S.cheapest_path_cost (p + d) = some c2 ∧ c2 ≤ cp + 1
  openLB : ∀ n ∈ S.open_set, ∀ p cp, p ∈ closedPts S →
    alGet S.cheapest_path_cost p = some cp → cp ≤ n.cost
  goalOpen : goal ∉ closedPts S
  keysBound : ∀ p ∈ alKeys S.cheapest_path_cost,
    p = frm ∨ m.in_bounds p = true
  nodupC : (alKeys S.cheapest_path_cost).Nodup

/-- Invariant of the state in the middle of the neighbor-relaxation loop of
one `navigate_ctx` iteration, for the popped node `n`; `done` are the
directions already processed. -/
structure MidInv {Tile Ctx : Type} (m : Map Tile)
    (conv : Tile → Point → Ctx → Traversable) (ctx : Ctx)
    (frm goal : Point) (n : AStarNode) (done : List Direction)
    (T : NavState) : Prop where
  nodupO : (posList T.open_set).Nodup
  openCheap : ∀ x ∈ T.open_set,
    alGet T.cheapest_path_cost x.position = some x.cost
  openGuess : ∀ x ∈ T.open_set, alGet T.total_cost_guess x.position =
    some (x.cost + Point.manhattan (goal - x.position))
  frmCheap : alGet T.cheapest_path_cost frm = some 0
  lo : ∀ x ∈ T.open_set, n.cost ≤ x.cost
  hi : ∀ x ∈ T.open_set, x.cost ≤ n.cost + 1
  edges : ∀ p d q, alGet T.came_from p = some (d, q) →
    p = q + d ∧ stepOK m conv ctx p ∧
      ∃ cq, alGet T.cheapest_path_cost q = some cq ∧
        alGet T.cheapest_path_cost p = some (cq + 1)
  keysCF : ∀ p, p ∈ alKeys T.came_from ↔
    p ∈ alKeys T.cheapest_path_cost ∧ p ≠ frm
  reach : ∀ p c, alGet T.cheapest_path_cost p = some c →
    ∃ ds, pathOK m conv ctx frm ds p ∧ ds.length = c
  closedOpt : ∀ p c, p ∈ closedPts T →
    alGet T.cheapest_path_cost p = some c →
    ∀ ds, pathOK m conv ctx frm ds p → c ≤ ds.length
  frontierOld : ∀ p cp, p ∈ closedPts T → p ≠ n.position →
    alGet T.cheapest_path_cost p = some cp →
    ∀ d : Direction, stepOK m conv ctx (p + d) →
      ∃ c2, alGet T.cheapest_path_cost (p + d) = some c2 ∧ c2 ≤ cp + 1
  frontierN : ∀ d ∈ done, stepOK m conv ctx (n.position + d) →
    ∃ c2, alGet T.cheapest_path_cost (n.position + d) = some c2 ∧
      c2 ≤ n.cost + 1
  nCheap : alGet T.cheapest_path_cost n.position = some n.cost
  nClosed : n.position ∈ closedPts T
  closedLB : ∀ p cp, p ∈ closedPts T →
    alGet T.cheapest_path_cost p = some cp → cp ≤ n.cost
  goalOpen : goal ∉ closedPts T
  keysBound : ∀ p ∈ alKeys T.cheapest_path_cost,
    p = frm ∨ m.in_bounds p = true
  nodupC : (alKeys T.cheapest_path_cost).Nodup

/-- Enumeration of the in-bounds points of a map. -/
def boundPts {Tile : Type} (m : Map Tile) : List Point :=
  (List.range (m.width * m.height)).map m.index2point

/-- Concrete 4-by-3 obstruction-free grid for the shortest-path example. -/
def map4x3 : Map Unit := ⟨List.replicate 12 (), 4, 3, ⟨0, 0⟩⟩

/-- Concrete 2-by-1 map with a negative offset for the navigation
counterexample. -/
def mapNeg2 : Map Unit := ⟨[(), ()], 2, 1, ⟨-1, 0⟩⟩

/-- Concrete all-Free 5-by-4 grid for the reachability count. -/
def map5x4 : Map Unit := ⟨List.replicate 20 (), 5, 4, ⟨0, 0⟩⟩

/-- Context conversion classifying every tile as free. -/
def convFree : Unit → Point → Unit → Traversable := fun _ _ _ => .Free

/-- Number of visitor invocations of a completed walk. -/
def bfsVisitCount {Tile : Type} : BfsOut Tile → Option Nat
  | .finished s => some s.visits.length
  | _ => none

/-- Invariant of the BFS loop backing the visit guarantees: every recorded
visit was classified non-`Obstructed`, the visited indices of the recorded
visits are pairwise distinct, and each of them is marked in the bitset. -/
def BfsInv {Tile Ctx : Type} (m : Map Tile)
    (conv : Tile → Point → Ctx → Traversable) (ctx : Ctx)
    (s : BfsState Tile) : Prop :=
  (∀ pt ∈ s.visits, conv pt.2 pt.1 ctx ≠ Traversable.Obstructed) ∧
  (s.visits.map (fun pt => m.point2index? pt.1)).Nodup ∧
  (∀ pt ∈ s.visits, ∃ i, m.point2index? pt.1 = some i ∧ i ∈ s.visited)

def bfsStepState {Tile : Type} : BfsStep Tile → BfsState Tile
  | .done s => s
  | .panicked s => s
  | .cont s => s

/-- Concrete tile parse accepting only the single character `a`. -/
def parseA : List Char → Option Unit :=
  fun c => if c = [Char.ofNat 97] then some () else none

/-- Concrete 1-by-2 map used to instantiate indexing statements. -/
def mapC9 : Map Nat := ⟨[10, 20], 1, 2, ⟨0, 0⟩⟩

/-- Concrete 1-by-1 map used to instantiate projection statements. -/
def mapC5 : Map Unit := ⟨[()], 1, 1, ⟨0, 0⟩⟩

/-- Invariant of the BFS loop backing the expansion guarantee: every
queued point is the start point or an in-bounds orthogonal neighbor of
some already visited point whose tile was classified `Free`. -/
def BfsQueueInv {Tile Ctx : Type} (m : Map Tile)
    (conv : Tile → Point → Ctx → Traversable) (ctx : Ctx) (start : Point)
    (s : BfsState Tile) : Prop :=
  ∀ q ∈ s.queue, q = start ∨ ∃ p t, (p, t) ∈ s.visits ∧
    conv t p ctx = Traversable.Free ∧ q ∈ m.orthogonal_adjacencies p

/-- State after the relaxation of `navigate_ctx` records a fresh neighbor
`nb` reached from `pos` by `d` at cost `g`: predecessor, g-score and
f-score recorded, and the node pushed onto the open set. -/
def relaxedState (goal nb : Point) (d : Direction) (pos : Point) (g : Nat)
    (T : NavState) : NavState :=
  { open_set := T.open_set ++ [⟨g, nb⟩]
    came_from := alInsert T.came_from nb (d, pos)
    cheapest_path_cost := alInsert T.cheapest_path_cost nb g
    total_cost_guess := alInsert T.total_cost_guess nb
      (g + Point.manhattan (goal - nb)) }

end Aoclib

namespace Aoclib

theorem point2index?_eq {Tile : Type} (m : Map Tile) (p : Point) (a b : Nat)
    (ha : p.x - m.offset.x = (a : Int)) (hb : p.y - m.offset.y = (b : Int)) :
    m.point2index? p = some (a + b * m.width) := by
  have ha' : (p.x - m.offset.x).toNat = a := by omega
  have hb' : (p.y - m.offset.y).toNat = b := by omega
  simp only [Map.point2index?]
  rw [if_pos ⟨by omega, by omega⟩, ha', hb']

theorem projectAux_getElem? (inb : Point → Bool) (d : Point) :
    ∀ (n : Nat) (cur : Point) (k : Nat) (q : Point),
      (projectAux inb d cur n)[k]? = some q ↔
        (k < n ∧ q = ⟨cur.x + k * d.x, cur.y + k * d.y⟩ ∧
          ∀ j ≤ k, inb ⟨cur.x + j * d.x, cur.y + j * d.y⟩ = true) := by
  intro n
  induction n with
  | zero => intro cur k q; simp [projectAux]
  | succ n ih =>
    intro cur k q
    by_cases hc : inb cur = true
    · cases k with
      | zero =>
        simp only [projectAux, hc, if_true, List.getElem?_cons_zero]
        constructor
        · rintro ⟨rfl⟩
          refine ⟨Nat.succ_pos _, ?_, ?_⟩
          · cases cur; simp
          · intro j hj
            interval_cases j
            simpa using hc
        · rintro ⟨-, rfl, -⟩
          cases cur; simp
      | succ k =>
        simp only [projectAux, hc, if_true, List.getElem?_cons_succ]
        rw [ih (cur + d) k q]
        constructor
        · rintro ⟨hk, rfl, hall⟩
          refine ⟨Nat.succ_lt_succ hk, ?_, ?_⟩
          · show Point.mk _ _ = Point.mk _ _
            have hx : (cur + d).x = cur.x + d.x := rfl
            have hy : (cur + d).y = cur.y + d.y := rfl
            rw [hx, hy]
            simp only [Point.mk.injEq]
            constructor <;> (push_cast; ring)
          · intro j hj
            cases j with
            | zero => simpa using hc
            | succ j =>
              have := hall j (Nat.le_of_succ_le_succ hj)
              have hx : (cur + d).x = cur.x + d.x := rfl
              have hy : (cur + d).y = cur.y + d.y := rfl
              rw [hx, hy] at this
              convert this using 3 <;> push_cast <;> ring
        · rintro ⟨hk, rfl, hall⟩
          refine ⟨Nat.lt_of_succ_lt_succ hk, ?_, ?_⟩
          · show Point.mk _ _ = Point.mk _ _
            have hx : (cur + d).x = cur.x + d.x := rfl
            have hy : (cur + d).y = cur.y + d.y := rfl
            rw [hx, hy]
            simp only [Point.mk.injEq]
            constructor <;> (push_cast; ring)
          · intro j hj
            have := hall (j + 1) (Nat.succ_le_succ hj)
            have hx : (cur + d).x = cur.x + d.x := rfl
            have hy : (cur + d).y = cur.y + d.y := rfl
            rw [hx, hy]
            convert this using 3 <;> push_cast <;> ring
    · have hc' : inb cur = false := by revert hc; cases inb cur <;> simp
      simp only [projectAux, hc', if_false]
      constructor
      · intro h; simp at h
      · rintro ⟨-, -, hall⟩
        have := hall 0 (Nat.zero_le _)
        have hcur : (⟨cur.x + (0 : Nat) * d.x, cur.y + (0 : Nat) * d.y⟩ : Point) = cur := by
          cases cur; simp
        rw [hcur] at this
        rw [this] at hc'
        cases hc'

/-- C5 counterexample: on a 1-by-1 grid at the origin, projecting from the
out-of-bounds origin `(5, 5)` yields the empty sequence, so the origin is
not the first item of the projection, refuting the claim that the origin is
always yielded for every origin point. -/
theorem c5_project_cex :
    mapC5.project ⟨5, 5⟩ 1 0 3 = [] ∧
      (mapC5.project ⟨5, 5⟩ 1 0 3).head? ≠ some ⟨5, 5⟩ := by
  constructor
  · rfl
  · intro h; cases h

/-- C5 (amended): for every map, origin and deltas, the `k`-th item of
`project(origin, dx, dy)` (truncated at any length `n`) is exactly
`origin + k * (dx, dy)`, and an item is produced at position `k` precisely
when every point of the sequence up to and including step `k` is in bounds:
the sequence starts at the origin only when the origin itself is in bounds,
and it stops the first time a step (the origin included) leaves the grid. -/
theorem c5_project_items {Tile : Type} (m : Map Tile) (origin : Point)
    (dx dy : Int) (n k : Nat) (q : Point) :
    (m.project origin dx dy n)[k]? = some q ↔
      (k < n ∧ q = stepPt origin dx dy k ∧
        ∀ j ≤ k, m.in_bounds (stepPt origin dx dy j) = true) :=
  projectAux_getElem? m.in_bounds ⟨dx, dy⟩ n origin k q

/-- C9: indexing through `Index<Point> for Map` checks only that both
coordinates are nonnegative. For a map with origin offset, width at least 1
and height at least 2, the out-of-bounds point `(width, y)` with
`y ≤ height - 2` is read without a panic and silently aliases the in-bounds
point `(0, y + 1)` on the next row. -/
theorem c9_index_aliases_next_row {Tile : Type} (m : Map Tile) (y : Nat)
    (hoff : m.offset = ⟨0, 0⟩)
    (hlen : m.tiles.length = m.width * m.height)
    (hw : 1 ≤ m.width) (hy : y + 2 ≤ m.height) :
    m.in_bounds ⟨(m.width : Int), (y : Int)⟩ = false ∧
      m.in_bounds ⟨0, (y : Int) + 1⟩ = true ∧
      m.get? ⟨(m.width : Int), (y : Int)⟩ = m.get? ⟨0, (y : Int) + 1⟩ ∧
      ∃ t, m.get? ⟨(m.width : Int), (y : Int)⟩ = some t := by
  have hb1 : m.in_bounds ⟨(m.width : Int), (y : Int)⟩ = false := by
    simp only [Map.in_bounds, Map.low_x, Map.low_y, Map.high_x, Map.high_y, hoff]
    simp only [Bool.and_eq_false_iff, decide_eq_false_iff_not, not_le]
    omega
  have hb2 : m.in_bounds ⟨0, (y : Int) + 1⟩ = true := by
    simp only [Map.in_bounds, Map.low_x, Map.low_y, Map.high_x, Map.high_y, hoff]
    simp only [Bool.and_eq_true, decide_eq_true_eq]
    omega
  have hidx1 : m.point2index? ⟨(m.width : Int), (y : Int)⟩ =
      some (m.width + y * m.width) := by
    apply point2index?_eq <;> rw [hoff] <;> simp
  have hidx2 : m.point2index? ⟨0, (y : Int) + 1⟩ =
      some (m.width + y * m.width) := by
    have h0 : m.point2index? ⟨0, (y : Int) + 1⟩ = some (0 + (y + 1) * m.width) := by
      apply point2index?_eq <;> rw [hoff] <;> simp
    rw [h0]
    congr 1
    ring
  have hlt : m.width + y * m.width < m.tiles.length := by
    rw [hlen]
    calc m.width + y * m.width = (y + 1) * m.width := by ring
    _ < m.height * m.width := by
        apply Nat.mul_lt_mul_of_lt_of_le (by omega) (Nat.le_refl _)
        omega
    _ = m.width * m.height := Nat.mul_comm _ _
  have hget1 : m.get? ⟨(m.width : Int), (y : Int)⟩ =
      m.tiles[m.width + y * m.width]? := by
    simp only [Map.get?]
    rw [if_pos (by constructor <;> omega), hidx1]
    rfl
  have hget2 : m.get? ⟨0, (y : Int) + 1⟩ = m.tiles[m.width + y * m.width]? := by
    simp only [Map.get?]
    rw [if_pos (by constructor <;> omega), hidx2]
    rfl
  refine ⟨hb1, hb2, by rw [hget1, hget2], ?_⟩
  rw [hget1]
  exact ⟨m.tiles[m.width + y * m.width], List.getElem?_eq_getElem hlt⟩

theorem chunksAux_fuel (w : Nat) :
    ∀ (f1 f2 : Nat) (s : List Char), s.length ≤ f1 → s.length ≤ f2 →
      chunksAux w f1 s = chunksAux w f2 s := by
  intro f1
  induction f1 with
  | zero =>
    intro f2 s h1 _
    have hs : s = [] := List.length_eq_zero.mp (Nat.le_zero.mp h1)
    subst hs
    cases f2 with
    | zero => rfl
    | succ f2 =>
      simp only [chunksAux]
      rw [if_neg]
      rintro ⟨hw, hle⟩
      simp at hle
      omega
  | succ f1 ih =>
    intro f2 s h1 h2
    cases f2 with
    | zero =>
      have hs : s = [] := List.length_eq_zero.mp (Nat.le_zero.mp h2)
      subst hs
      simp only [chunksAux]
      rw [if_neg]
      rintro ⟨hw, hle⟩
      simp at hle
      omega
    | succ f2 =>
      simp only [chunksAux]
      by_cases hcond : 0 < w ∧ w ≤ s.length
      · rw [if_pos hcond, if_pos hcond]
        congr 1
        apply ih
        · simp only [List.length_drop]; omega
        · simp only [List.length_drop]; omega
      · rw [if_neg hcond, if_neg hcond]

theorem chunksAux_of_short (w f : Nat) (s : List Char)
    (h : ¬(0 < w ∧ w ≤ s.length)) : chunksAux w f s = [] := by
  cases f with
  | zero => rfl
  | succ f => simp only [chunksAux]; rw [if_neg h]

/-- Unfolding equation for `chunks`, recovering the source recursion. -/
theorem chunks_eq (w : Nat) (s : List Char) :
    chunks w s =
      if 0 < w ∧ w ≤ s.length then s.take w :: chunks w (s.drop w) else [] := by
  by_cases hcond : 0 < w ∧ w ≤ s.length
  · rw [if_pos hcond]
    obtain ⟨hw, hle⟩ := hcond
    show chunksAux w s.length s = _
    have hk : s.length = (s.length - 1) + 1 := by omega
    rw [hk]
    simp only [chunksAux]
    rw [if_pos ⟨hw, by omega⟩]
    congr 1
    apply chunksAux_fuel
    · simp only [List.length_drop]; omega
    · exact Nat.le_refl _
  · rw [if_neg hcond]
    exact chunksAux_of_short w s.length s hcond

theorem parseRow_error_shape {Tile : Type} (parse : List Char → Option Tile) :
    ∀ (cs : List (List Char)) (e : MapConversionErr),
      parseRow parse cs = .error e →
        ∃ raw, e = .TileConversion raw ∧ parse raw = none := by
  intro cs
  induction cs with
  | nil => intro e h; simp [parseRow] at h
  | cons c cs ih =>
    intro e h
    cases hp : parse c with
    | none =>
      simp [parseRow, hp] at h
      exact ⟨c, h.symm, hp⟩
    | some t =>
      cases hr : parseRow parse cs with
      | error e2 =>
        simp [parseRow, hp, hr] at h
        subst h
        exact ih e2 hr
      | ok ts => simp [parseRow, hp, hr] at h

theorem parseRow_error_of {Tile : Type} (parse : List Char → Option Tile) :
    ∀ (cs : List (List Char)) (c : List Char), c ∈ cs → parse c = none →
      ∃ raw, parseRow parse cs = .error (.TileConversion raw) ∧
        parse raw = none := by
  intro cs
  induction cs with
  | nil => intro c hc; cases hc
  | cons c0 cs ih =>
    intro c hc hf
    cases hp : parse c0 with
    | none =>
      refine ⟨c0, ?_, hp⟩
      simp only [parseRow, hp]
    | some t =>
      have hc' : c ∈ cs := by
        cases hc with
        | head => rw [hf] at hp; cases hp
        | tail _ h => exact h
      obtain ⟨raw, herr, hraw⟩ := ih c hc' hf
      refine ⟨raw, ?_, hraw⟩
      simp only [parseRow, hp, herr]

theorem collectRows_error_of {Tile : Type} (w : Nat)
    (parse : List Char → Option Tile) :
    ∀ (input : List (List Char)) (line : List Char) (c : List Char),
      line ∈ input → c ∈ chunks w line → parse c = none →
        ∃ raw, collectRows w parse input = .error (.TileConversion raw) ∧
          parse raw = none := by
  intro input
  induction input with
  | nil => intro line c hl; cases hl
  | cons l0 rest ih =>
    intro line c hl hc hf
    cases hr : parseRow parse (chunks w l0) with
    | error e =>
      obtain ⟨raw, herr, hraw⟩ := parseRow_error_shape parse _ e hr
      refine ⟨raw, ?_, hraw⟩
      simp only [collectRows, hr, herr]
    | ok row =>
      have hl' : line ∈ rest := by
        cases hl with
        | head =>
          exfalso
          obtain ⟨raw, herr, -⟩ := parseRow_error_of parse _ c hc hf
          rw [herr] at hr
          cases hr
        | tail _ h => exact h
      obtain ⟨raw, herr, hraw⟩ := ih line c hl' hc hf
      refine ⟨raw, ?_, hraw⟩
      simp only [collectRows, hr, herr]

/-- C4 counterexample: with display width 2 and a tile parse that accepts
every chunk, the single line `abc` does not chunk evenly, yet the parse
succeeds: the chunker silently discards the character `c` and a 1-by-1 grid
is returned, refuting the claim that an unevenly chunking line aborts the
parse with a `TileConversion` error. -/
theorem c4_uneven_line_still_ok :
    chunks 2 [Char.ofNat 97, Char.ofNat 98, Char.ofNat 99] =
        [[Char.ofNat 97, Char.ofNat 98]] ∧
      tryFromLines 2 (fun (_ : List Char) => some ())
          [[Char.ofNat 97, Char.ofNat 98, Char.ofNat 99]] =
        .ok ⟨[()], 1, 1, ⟨0, 0⟩⟩ :=
  ⟨rfl, rfl⟩

/-- C4 (amended): a chunk whose tile parse fails aborts the whole parse
with a `TileConversion` error carrying the offending cell's content and the
underlying cause, and no partial grid is returned; a line that fails to
chunk evenly does not error: its trailing remainder of fewer than
`DISPLAY_WIDTH` characters is silently discarded by the chunker. -/
theorem c4_parse_failure_aborts {Tile : Type} (w : Nat)
    (parse : List Char → Option Tile) (input : List (List Char))
    (line c : List Char) (hline : line ∈ input) (hc : c ∈ chunks w line)
    (hfail : parse c = none) :
    (∃ raw, tryFromLines w parse input = .error (.TileConversion raw) ∧
        parse raw = none) ∧
      ∀ (l r : List Char), 0 < w → w ∣ l.length → r.length < w →
        chunks w (l ++ r) = chunks w l := by
  constructor
  · obtain ⟨raw, herr, hraw⟩ := collectRows_error_of w parse input line c hline hc hfail
    refine ⟨raw, ?_, hraw⟩
    simp only [tryFromLines, herr]
  · intro l r hw hdvd hr
    obtain ⟨k, hk⟩ := hdvd
    clear hline hc hfail
    induction k generalizing l with
    | zero =>
      have hl : l = [] := List.length_eq_zero.mp (by omega)
      subst hl
      have h1 : chunks w r = [] := by
        rw [chunks_eq, if_neg]
        rintro ⟨-, hle⟩
        omega
      have h2 : chunks w ([] : List Char) = [] := rfl
      rw [List.nil_append, h1, h2]
    | succ k ih =>
      have hlw : w ≤ l.length := by
        rw [hk]
        calc w = w * 1 := (Nat.mul_one w).symm
        _ ≤ w * (k + 1) := Nat.mul_le_mul_left w (by omega)
      have hL : chunks w (l ++ r) =
          (l ++ r).take w :: chunks w ((l ++ r).drop w) := by
        rw [chunks_eq, if_pos ⟨hw, by rw [List.length_append]; omega⟩]
      have hR : chunks w l = l.take w :: chunks w (l.drop w) := by
        rw [chunks_eq, if_pos ⟨hw, hlw⟩]
      rw [hL, hR, List.take_append_of_le_length hlw,
        List.drop_append_of_le_length hlw]
      congr 1
      exact ih (l.drop w)
        (by simp only [List.length_drop]; rw [hk, Nat.mul_succ]; omega)

/-- C4 witness: with display width 1, the line `ab` under a parse that only
accepts `a` aborts with a `TileConversion` error carrying `b`. -/
theorem c4_parse_failure_aborts_witness :
    ([Char.ofNat 97, Char.ofNat 98] ∈ [[Char.ofNat 97, Char.ofNat 98]] ∧
        [Char.ofNat 98] ∈ chunks 1 [Char.ofNat 97, Char.ofNat 98] ∧
        parseA [Char.ofNat 98] = none) ∧
      ((∃ raw, tryFromLines 1 parseA [[Char.ofNat 97, Char.ofNat 98]] =
            .error (.TileConversion raw) ∧ parseA raw = none) ∧
        ∀ (l r : List Char), 0 < 1 → 1 ∣ l.length → r.length < 1 →
          chunks 1 (l ++ r) = chunks 1 l) :=
  ⟨⟨by decide, by decide, by decide⟩,
    c4_parse_failure_aborts 1 parseA [[Char.ofNat 97, Char.ofNat 98]]
      [Char.ofNat 97, Char.ofNat 98] [Char.ofNat 98]
      (by decide) (by decide) (by decide)⟩

theorem list_mapM_some {α β : Type} (f : α → Option β) :
    ∀ l : List α, (∀ x ∈ l, (f x).isSome = true) →
      ∃ ts : List β, l.mapM f = some ts ∧ ts.length = l.length ∧
        ∀ k : Nat, ts[k]? = (l[k]?).bind f := by
  intro l
  induction l with
  | nil =>
    intro _
    exact ⟨[], rfl, rfl, fun k => by simp⟩
  | cons x xs ih =>
    intro h
    obtain ⟨b, hb⟩ := Option.isSome_iff_exists.mp (h x (List.mem_cons_self x xs))
    obtain ⟨ts, hts, hlen, hidx⟩ := ih (fun y hy => h y (List.mem_cons_of_mem x hy))
    refine ⟨b :: ts, ?_, by simp [hlen], ?_⟩
    · rw [List.mapM_cons, hb, hts]
      rfl
    · intro k
      cases k with
      | zero => simp [hb]
      | succ k => simpa using hidx k

theorem Map.get?_eq {Tile : Type} (m : Map Tile) (a b : Nat)
    (hx : 0 ≤ m.offset.x) (hy : 0 ≤ m.offset.y) :
    m.get? ⟨m.offset.x + (a : Int), m.offset.y + (b : Int)⟩ =
      m.tiles[a + b * m.width]? := by
  unfold Map.get?
  rw [if_pos ⟨by simp; omega, by simp; omega⟩]
  rw [point2index?_eq m _ a b
    (by show m.offset.x + (a : Int) - m.offset.x = (a : Int); ring)
    (by show m.offset.y + (b : Int) - m.offset.y = (b : Int); ring)]
  rfl

theorem idx_lt_of (a b w h : Nat) (ha : a < w) (hb : b < h) :
    a + b * w < w * h := by
  calc a + b * w < w + b * w := by omega
  _ = (b + 1) * w := by ring
  _ ≤ h * w := Nat.mul_le_mul_right w (by omega)
  _ = w * h := Nat.mul_comm h w

theorem decompose_mod_div (a b w : Nat) (ha : a < w) :
    (a + b * w) % w = a ∧ (a + b * w) / w = b := by
  constructor
  · rw [Nat.add_mul_mod_self_right, Nat.mod_eq_of_lt ha]
  · rw [Nat.add_mul_div_right _ _ (by omega : 0 < w), Nat.div_eq_of_lt ha,
      Nat.zero_add]

theorem cast_sub_helper (H q : Nat) (h : q < H) :
    ((H - 1 - q : Nat) : Int) = (H : Int) - 1 - (q : Int) := by omega

theorem flip_vertical_spec {Tile : Type} (m : Map Tile)
    (hx : 0 ≤ m.offset.x) (hy : 0 ≤ m.offset.y)
    (hinv : m.tiles.length = m.width * m.height) :
    ∃ M, m.flip_vertical = some M ∧ M.width = m.width ∧
      M.height = m.height ∧ M.offset = m.offset ∧
      M.tiles.length = m.width * m.height ∧
      ∀ j, j < m.width * m.height → M.tiles[j]? =
        m.tiles[j % m.width + (m.height - 1 - j / m.width) * m.width]? := by
  have hpt : ∀ idx, idx < m.width * m.height →
      (fun idx =>
        let p := m.index2point idx
        m.get? ⟨p.x, m.low_y + m.high_y - p.y⟩) idx =
      m.tiles[idx % m.width + (m.height - 1 - idx / m.width) * m.width]? := by
    intro idx hidx
    have hw : 0 < m.width := by
      by_contra hw
      simp at hw
      rw [hw, Nat.zero_mul] at hidx
      omega
    have hh : 0 < m.height := by
      by_contra hh
      simp at hh
      rw [hh, Nat.mul_zero] at hidx
      omega
    have hdiv : idx / m.width < m.height := Nat.div_lt_of_lt_mul (by omega)
    show m.get? ⟨(m.index2point idx).x,
        m.low_y + m.high_y - (m.index2point idx).y⟩ = _
    have hxco : (m.index2point idx).x = m.offset.x + ((idx % m.width : Nat) : Int) := by
      show ((idx % m.width : Nat) : Int) + m.offset.x = _
      ring
    have hyco : m.low_y + m.high_y - (m.index2point idx).y =
        m.offset.y + ((m.height - 1 - idx / m.width : Nat) : Int) := by
      show m.offset.y + (m.offset.y + (m.height : Int) - 1) -
          (((idx / m.width : Nat) : Int) + m.offset.y) =
          m.offset.y + ((m.height - 1 - idx / m.width : Nat) : Int)
      rw [cast_sub_helper m.height (idx / m.width) hdiv]
      ring
    rw [hxco, hyco]
    exact m.get?_eq _ _ hx hy
  have hsome : ∀ idx ∈ List.range (m.width * m.height),
      ((fun idx =>
        let p := m.index2point idx
        m.get? ⟨p.x, m.low_y + m.high_y - p.y⟩) idx).isSome = true := by
    intro idx hmem
    have hidx := List.mem_range.mp hmem
    rw [hpt idx hidx]
    have hw : 0 < m.width := by
      by_contra hw
      simp at hw
      rw [hw, Nat.zero_mul] at hidx
      omega
    have hh : 0 < m.height := by
      by_contra hh
      simp at hh
      rw [hh, Nat.mul_zero] at hidx
      omega
    rw [List.getElem?_eq_getElem]
    · rfl
    · rw [hinv]
      exact idx_lt_of _ _ _ _ (Nat.mod_lt _ hw)
        (lt_of_le_of_lt (Nat.sub_le _ _) (by omega))
  obtain ⟨ts, hts, hlen, hgets⟩ := list_mapM_some _ (List.range (m.width * m.height)) hsome
  refine ⟨⟨ts, m.width, m.height, m.offset⟩, ?_, rfl, rfl, rfl, ?_, ?_⟩
  · unfold Map.flip_vertical
    rw [hts]
    rfl
  · rw [hlen, List.length_range]
  · intro j hj
    show ts[j]? = _
    rw [hgets j, List.getElem?_range hj]
    exact hpt j hj

theorem pos_of_lt_mul {w h j : Nat} (hj : j < w * h) : 0 < w ∧ 0 < h := by
  refine ⟨?_, ?_⟩
  · by_contra hc
    simp at hc
    rw [hc, Nat.zero_mul] at hj
    omega
  · by_contra hc
    simp at hc
    rw [hc, Nat.mul_zero] at hj
    omega

theorem sigmaV_lt (w h j : Nat) (hj : j < w * h) :
    j % w + (h - 1 - j / w) * w < w * h := by
  obtain ⟨hw, hh⟩ := pos_of_lt_mul hj
  exact idx_lt_of _ _ _ _ (Nat.mod_lt _ hw)
    (lt_of_le_of_lt (Nat.sub_le _ _) (by omega))

theorem sigmaV_invol (w h j : Nat) (hj : j < w * h) :
    (j % w + (h - 1 - j / w) * w) % w +
      (h - 1 - (j % w + (h - 1 - j / w) * w) / w) * w = j := by
  obtain ⟨hw, hh⟩ := pos_of_lt_mul hj
  have hmod : j % w < w := Nat.mod_lt _ hw
  obtain ⟨hm, hd⟩ := decompose_mod_div (j % w) (h - 1 - j / w) w hmod
  rw [hm, hd]
  obtain ⟨q, hq, hqe⟩ : ∃ q, q < h ∧ j / w = q :=
    ⟨j / w, Nat.div_lt_of_lt_mul hj, rfl⟩
  rw [hqe]
  have h1 : h - 1 - (h - 1 - q) = q := by omega
  rw [h1, ← hqe]
  exact Nat.mod_add_div' j w

theorem sigmaH_lt (w h j : Nat) (hj : j < w * h) :
    (w - 1 - j % w) + (j / w) * w < w * h := by
  obtain ⟨hw, hh⟩ := pos_of_lt_mul hj
  exact idx_lt_of _ _ _ _ (lt_of_le_of_lt (Nat.sub_le _ _) (by omega))
    (Nat.div_lt_of_lt_mul hj)

theorem sigmaH_invol (w h j : Nat) (hj : j < w * h) :
    (w - 1 - ((w - 1 - j % w) + (j / w) * w) % w) +
      (((w - 1 - j % w) + (j / w) * w) / w) * w = j := by
  obtain ⟨hw, hh⟩ := pos_of_lt_mul hj
  have hmod : j % w < w := Nat.mod_lt _ hw
  have ha : w - 1 - j % w < w := lt_of_le_of_lt (Nat.sub_le _ _) (by omega)
  obtain ⟨hm, hd⟩ := decompose_mod_div (w - 1 - j % w) (j / w) w ha
  rw [hm, hd]
  obtain ⟨r, hr, hre⟩ : ∃ r, r < w ∧ j % w = r := ⟨j % w, hmod, rfl⟩
  rw [hre]
  have h1 : w - 1 - (w - 1 - r) = r := by omega
  rw [h1, ← hre]
  exact Nat.mod_add_div' j w

theorem flip_horizontal_spec {Tile : Type} (m : Map Tile)
    (hx : 0 ≤ m.offset.x) (hy : 0 ≤ m.offset.y)
    (hinv : m.tiles.length = m.width * m.height) :
    ∃ M, m.flip_horizontal = some M ∧ M.width = m.width ∧
      M.height = m.height ∧ M.offset = m.offset ∧
      M.tiles.length = m.width * m.height ∧
      ∀ j, j < m.width * m.height → M.tiles[j]? =
        m.tiles[(m.width - 1 - j % m.width) + (j / m.width) * m.width]? := by
  have hpt : ∀ idx, idx < m.width * m.height →
      (fun idx =>
        let p := m.index2point idx
        m.get? ⟨m.low_x + m.high_x - p.x, p.y⟩) idx =
      m.tiles[(m.width - 1 - idx % m.width) + (idx / m.width) * m.width]? := by
    intro idx hidx
    obtain ⟨hw, hh⟩ := pos_of_lt_mul hidx
    have hmod : idx % m.width < m.width := Nat.mod_lt _ hw
    show m.get? ⟨m.low_x + m.high_x - (m.index2point idx).x,
        (m.index2point idx).y⟩ = _
    have hxco : m.low_x + m.high_x - (m.index2point idx).x =
        m.offset.x + ((m.width - 1 - idx % m.width : Nat) : Int) := by
      show m.offset.x + (m.offset.x + (m.width : Int) - 1) -
          (((idx % m.width : Nat) : Int) + m.offset.x) =
          m.offset.x + ((m.width - 1 - idx % m.width : Nat) : Int)
      rw [cast_sub_helper m.width (idx % m.width) hmod]
      ring
    have hyco : (m.index2point idx).y =
        m.offset.y + ((idx / m.width : Nat) : Int) := by
      show ((idx / m.width : Nat) : Int) + m.offset.y = _
      ring
    rw [hxco, hyco]
    exact m.get?_eq _ _ hx hy
  have hsome : ∀ idx ∈ List.range (m.width * m.height),
      ((fun idx =>
        let p := m.index2point idx
        m.get? ⟨m.low_x + m.high_x - p.x, p.y⟩) idx).isSome = true := by
    intro idx hmem
    have hidx := List.mem_range.mp hmem
    rw [hpt idx hidx]
    rw [List.getElem?_eq_getElem]
    · rfl
    · rw [hinv]
      exact sigmaH_lt _ _ _ hidx
  obtain ⟨ts, hts, hlen, hgets⟩ :=
    list_mapM_some _ (List.range (m.width * m.height)) hsome
  refine ⟨⟨ts, m.width, m.height, m.offset⟩, ?_, rfl, rfl, rfl, ?_, ?_⟩
  · unfold Map.flip_horizontal
    rw [hts]
    rfl
  · rw [hlen, List.length_range]
  · intro j hj
    show ts[j]? = _
    rw [hgets j, List.getElem?_range hj]
    exact hpt j hj

theorem rotate_left_spec {Tile : Type} (m : Map Tile)
    (hoff : m.offset = ⟨0, 0⟩)
    (hinv : m.tiles.length = m.width * m.height) :
    ∃ M, m.rotate_left = some M ∧ M.width = m.height ∧ M.height = m.width ∧
      M.offset = ⟨0, 0⟩ ∧ M.tiles.length = m.height * m.width ∧
      ∀ i, i < m.height * m.width → M.tiles[i]? =
        m.tiles[i / m.height + (m.height - 1 - i % m.height) * m.width]? := by
  have hx : (0 : Int) ≤ m.offset.x := by simp [hoff]
  have hy : (0 : Int) ≤ m.offset.y := by simp [hoff]
  have hpt : ∀ i, i < m.height * m.width →
      (fun idx =>
        let u : Int := (idx % m.height : Nat)
        let v : Int := (idx / m.height : Nat)
        m.get? ⟨v, (m.height : Int) - 1 - u⟩) i =
      m.tiles[i / m.height + (m.height - 1 - i % m.height) * m.width]? := by
    intro i hi
    obtain ⟨hh, hw⟩ := pos_of_lt_mul hi
    have hmod : i % m.height < m.height := Nat.mod_lt _ hh
    show m.get? ⟨((i / m.height : Nat) : Int),
        (m.height : Int) - 1 - ((i % m.height : Nat) : Int)⟩ = _
    have harg : (⟨((i / m.height : Nat) : Int),
        (m.height : Int) - 1 - ((i % m.height : Nat) : Int)⟩ : Point) =
        ⟨m.offset.x + ((i / m.height : Nat) : Int),
          m.offset.y + ((m.height - 1 - i % m.height : Nat) : Int)⟩ := by
      rw [hoff, cast_sub_helper m.height (i % m.height) hmod]
      show Point.mk _ _ = Point.mk _ _
      simp only [Point.mk.injEq]
      constructor <;> ring
    rw [harg]
    exact m.get?_eq _ _ hx hy
  have hsome : ∀ i ∈ List.range (m.height * m.width),
      ((fun idx =>
        let u : Int := (idx % m.height : Nat)
        let v : Int := (idx / m.height : Nat)
        m.get? ⟨v, (m.height : Int) - 1 - u⟩) i).isSome = true := by
    intro i hmem
    have hi := List.mem_range.mp hmem
    obtain ⟨hh, hw⟩ := pos_of_lt_mul hi
    rw [hpt i hi]
    rw [List.getElem?_eq_getElem]
    · rfl
    · rw [hinv]
      exact idx_lt_of _ _ _ _ (Nat.div_lt_of_lt_mul hi)
        (lt_of_le_of_lt (Nat.sub_le _ _) (by omega))
  obtain ⟨ts, hts, hlen, hgets⟩ :=
    list_mapM_some _ (List.range (m.height * m.width)) hsome
  refine ⟨⟨ts, m.height, m.width, ⟨0, 0⟩⟩, ?_, rfl, rfl, rfl, ?_, ?_⟩
  · unfold Map.rotate_left
    rw [if_pos hoff, hts]
    rfl
  · rw [hlen, List.length_range]
  · intro i hi
    show ts[i]? = _
    rw [hgets i, List.getElem?_range hi]
    exact hpt i hi

theorem rotate_right_spec {Tile : Type} (m : Map Tile)
    (hoff : m.offset = ⟨0, 0⟩)
    (hinv : m.tiles.length = m.width * m.height) :
    ∃ M, m.rotate_right = some M ∧ M.width = m.height ∧ M.height = m.width ∧
      M.offset = ⟨0, 0⟩ ∧ M.tiles.length = m.height * m.width ∧
      ∀ i, i < m.height * m.width → M.tiles[i]? =
        m.tiles[(m.width - 1 - i / m.height) + (i % m.height) * m.width]? := by
  have hx : (0 : Int) ≤ m.offset.x := by simp [hoff]
  have hy : (0 : Int) ≤ m.offset.y := by simp [hoff]
  have hpt : ∀ i, i < m.height * m.width →
      (fun idx =>
        let u : Int := (idx % m.height : Nat)
        let v : Int := (idx / m.height : Nat)
        m.get? ⟨(m.width : Int) - 1 - v, u⟩) i =
      m.tiles[(m.width - 1 - i / m.height) + (i % m.height) * m.width]? := by
    intro i hi
    obtain ⟨hh, hw⟩ := pos_of_lt_mul hi
    have hdv : i / m.height < m.width := Nat.div_lt_of_lt_mul hi
    show m.get? ⟨(m.width : Int) - 1 - ((i / m.height : Nat) : Int),
        ((i % m.height : Nat) : Int)⟩ = _
    have harg : (⟨(m.width : Int) - 1 - ((i / m.height : Nat) : Int),
        ((i % m.height : Nat) : Int)⟩ : Point) =
        ⟨m.offset.x + ((m.width - 1 - i / m.height : Nat) : Int),
          m.offset.y + ((i % m.height : Nat) : Int)⟩ := by
      rw [hoff, cast_sub_helper m.width (i / m.height) hdv]
      show Point.mk _ _ = Point.mk _ _
      simp only [Point.mk.injEq]
      constructor <;> ring
    rw [harg]
    exact m.get?_eq _ _ hx hy
  have hsome : ∀ i ∈ List.range (m.height * m.width),
      ((fun idx =>
        let u : Int := (idx % m.height : Nat)
        let v : Int := (idx / m.height : Nat)
        m.get? ⟨(m.width : Int) - 1 - v, u⟩) i).isSome = true := by
    intro i hmem
    have hi := List.mem_range.mp hmem
    obtain ⟨hh, hw⟩ := pos_of_lt_mul hi
    rw [hpt i hi]
    rw [List.getElem?_eq_getElem]
    · rfl
    · rw [hinv]
      exact idx_lt_of _ _ _ _
        (lt_of_le_of_lt (Nat.sub_le _ _) (by omega)) (Nat.mod_lt _ hh)
  obtain ⟨ts, hts, hlen, hgets⟩ :=
    list_mapM_some _ (List.range (m.height * m.width)) hsome
  refine ⟨⟨ts, m.height, m.width, ⟨0, 0⟩⟩, ?_, rfl, rfl, rfl, ?_, ?_⟩
  · unfold Map.rotate_right
    rw [if_pos hoff, hts]
    rfl
  · rw [hlen, List.length_range]
  · intro i hi
    show ts[i]? = _
    rw [hgets i, List.getElem?_range hi]
    exact hpt i hi

theorem Map.eq_of_fields {Tile : Type} {a b : Map Tile}
    (ht : a.tiles = b.tiles) (hw : a.width = b.width)
    (hh : a.height = b.height) (ho : a.offset = b.offset) : a = b := by
  cases a
  cases b
  dsimp at ht hw hh ho
  subst ht; subst hw; subst hh; subst ho
  rfl

theorem rotA (w h i : Nat) (hi : i < w * h) :
    (h - 1 - i / w) + (i % w) * h < h * w ∧
    ((h - 1 - i / w) + (i % w) * h) / h +
      (h - 1 - ((h - 1 - i / w) + (i % w) * h) % h) * w = i := by
  obtain ⟨hw, hh⟩ := pos_of_lt_mul hi
  have ha : h - 1 - i / w < h := lt_of_le_of_lt (Nat.sub_le _ _) (by omega)
  have hb : i % w < w := Nat.mod_lt _ hw
  obtain ⟨hm, hd⟩ := decompose_mod_div (h - 1 - i / w) (i % w) h ha
  refine ⟨idx_lt_of _ _ _ _ ha hb, ?_⟩
  rw [hm, hd]
  obtain ⟨q, hq, hqe⟩ : ∃ q, q < h ∧ i / w = q :=
    ⟨i / w, Nat.div_lt_of_lt_mul hi, rfl⟩
  rw [hqe]
  have h1 : h - 1 - (h - 1 - q) = q := by omega
  rw [h1, ← hqe]
  exact Nat.mod_add_div' i w

theorem rotB (w h i : Nat) (hi : i < w * h) :
    i / w + (w - 1 - i % w) * h < h * w ∧
    (w - 1 - (i / w + (w - 1 - i % w) * h) / h) +
      ((i / w + (w - 1 - i % w) * h) % h) * w = i := by
  obtain ⟨hw, hh⟩ := pos_of_lt_mul hi
  have ha : i / w < h := Nat.div_lt_of_lt_mul hi
  have hb : w - 1 - i % w < w := lt_of_le_of_lt (Nat.sub_le _ _) (by omega)
  obtain ⟨hm, hd⟩ := decompose_mod_div (i / w) (w - 1 - i % w) h ha
  refine ⟨idx_lt_of _ _ _ _ ha hb, ?_⟩
  rw [hm, hd]
  obtain ⟨r, hr, hre⟩ : ∃ r, r < w ∧ i % w = r := ⟨i % w, Nat.mod_lt _ hw, rfl⟩
  rw [hre]
  have h1 : w - 1 - (w - 1 - r) = r := by omega
  rw [h1, ← hre]
  exact Nat.mod_add_div' i w

/-- C8 counterexample: on a 1-by-1 map whose offset is `(-1, 0)`, the flip
loop reads the in-bounds cell `(-1, 0)` through `Index<Point>`, hitting the
positive-quadrant assertion (a panic, modelled as `none`), so the double
flip does not return the original map; this refutes the claim for
arbitrary offsets. -/
theorem c8_flip_neg_offset_cex :
    mapNegOff.flip_vertical = none ∧
      mapNegOff.flip_vertical.bind Map.flip_vertical ≠ some mapNegOff :=
  ⟨rfl, fun h => Option.noConfusion h⟩

/-- C8 (amended): for maps whose offset has nonnegative coordinates (so
that no cell of the rectangle triggers the positive-quadrant indexing
assertion) and whose tile buffer has the invariant length, flipping twice
vertically or twice horizontally returns the original map; and for maps
whose offset is the origin, rotating left then right, or right then left,
returns the original map. -/
theorem c8_transform_involutions {Tile : Type} (m : Map Tile)
    (hinv : m.tiles.length = m.width * m.height)
    (hx : 0 ≤ m.offset.x) (hy : 0 ≤ m.offset.y) :
    (m.flip_vertical.bind Map.flip_vertical = some m ∧
      m.flip_horizontal.bind Map.flip_horizontal = some m) ∧
    (m.offset = ⟨0, 0⟩ →
      m.rotate_left.bind Map.rotate_right = some m ∧
      m.rotate_right.bind Map.rotate_left = some m) := by
  constructor
  · constructor
    · obtain ⟨M, hM, hMw, hMh, hMo, hMlen, hMget⟩ := flip_vertical_spec m hx hy hinv
      obtain ⟨M2, hM2, hM2w, hM2h, hM2o, hM2len, hM2get⟩ :=
        flip_vertical_spec M (by rw [hMo]; exact hx) (by rw [hMo]; exact hy)
          (by rw [hMw, hMh]; exact hMlen)
      rw [hM, Option.some_bind, hM2]
      congr 1
      rw [hMw, hMh] at hM2get hM2len
      refine Map.eq_of_fields ?_ (hM2w.trans hMw) (hM2h.trans hMh) (hM2o.trans hMo)
      apply List.ext_getElem?
      intro j
      by_cases hj : j < m.width * m.height
      · rw [hM2get j hj, hMget _ (sigmaV_lt _ _ _ hj), sigmaV_invol _ _ _ hj]
      · rw [List.getElem?_eq_none, List.getElem?_eq_none]
        · rw [hinv]; omega
        · rw [hM2len]; omega
    · obtain ⟨M, hM, hMw, hMh, hMo, hMlen, hMget⟩ := flip_horizontal_spec m hx hy hinv
      obtain ⟨M2, hM2, hM2w, hM2h, hM2o, hM2len, hM2get⟩ :=
        flip_horizontal_spec M (by rw [hMo]; exact hx) (by rw [hMo]; exact hy)
          (by rw [hMw, hMh]; exact hMlen)
      rw [hM, Option.some_bind, hM2]
      congr 1
      rw [hMw, hMh] at hM2get hM2len
      refine Map.eq_of_fields ?_ (hM2w.trans hMw) (hM2h.trans hMh) (hM2o.trans hMo)
      apply List.ext_getElem?
      intro j
      by_cases hj : j < m.width * m.height
      · rw [hM2get j hj, hMget _ (sigmaH_lt _ _ _ hj), sigmaH_invol _ _ _ hj]
      · rw [List.getElem?_eq_none, List.getElem?_eq_none]
        · rw [hinv]; omega
        · rw [hM2len]; omega
  · intro hoff
    constructor
    · obtain ⟨M, hM, hMw, hMh, hMo, hMlen, hMget⟩ := rotate_left_spec m hoff hinv
      obtain ⟨M2, hM2, hM2w, hM2h, hM2o, hM2len, hM2get⟩ :=
        rotate_right_spec M hMo (by rw [hMw, hMh]; exact hMlen)
      rw [hM, Option.some_bind, hM2]
      congr 1
      rw [hMw, hMh] at hM2get hM2len
      refine Map.eq_of_fields ?_ (hM2w.trans hMh) (hM2h.trans hMw)
        (hM2o.trans hoff.symm)
      apply List.ext_getElem?
      intro i
      by_cases hi : i < m.width * m.height
      · rw [hM2get i hi, hMget _ (rotA m.width m.height i hi).1,
          (rotA m.width m.height i hi).2]
      · rw [List.getElem?_eq_none, List.getElem?_eq_none]
        · rw [hinv]; omega
        · rw [hM2len]; omega
    · obtain ⟨M, hM, hMw, hMh, hMo, hMlen, hMget⟩ := rotate_right_spec m hoff hinv
      obtain ⟨M2, hM2, hM2w, hM2h, hM2o, hM2len, hM2get⟩ :=
        rotate_left_spec M hMo (by rw [hMw, hMh]; exact hMlen)
      rw [hM, Option.some_bind, hM2]
      congr 1
      rw [hMw, hMh] at hM2get hM2len
      refine Map.eq_of_fields ?_ (hM2w.trans hMh) (hM2h.trans hMw)
        (hM2o.trans hoff.symm)
      apply List.ext_getElem?
      intro i
      by_cases hi : i < m.width * m.height
      · rw [hM2get i hi, hMget _ (rotB m.width m.height i hi).1,
          (rotB m.width m.height i hi).2]
      · rw [List.getElem?_eq_none, List.getElem?_eq_none]
        · rw [hinv]; omega
        · rw [hM2len]; omega

/-- C8 witness: the amended statement instantiated on a concrete 1-by-2 map. -/
theorem c8_transform_involutions_witness :
    (mapC9.tiles.length = mapC9.width * mapC9.height ∧
        0 ≤ mapC9.offset.x ∧ 0 ≤ mapC9.offset.y) ∧
      ((mapC9.flip_vertical.bind Map.flip_vertical = some mapC9 ∧
          mapC9.flip_horizontal.bind Map.flip_horizontal = some mapC9) ∧
        (mapC9.offset = ⟨0, 0⟩ →
          mapC9.rotate_left.bind Map.rotate_right = some mapC9 ∧
          mapC9.rotate_right.bind Map.rotate_left = some mapC9)) :=
  ⟨⟨rfl, by decide, by decide⟩,
    c8_transform_involutions mapC9 rfl (by decide) (by decide)⟩

theorem inv_requeue {Tile Ctx : Type} {m : Map Tile}
    {conv : Tile → Point → Ctx → Traversable} {ctx : Ctx}
    {q q' : List Point} {v : List Nat} {vs : List (Point × Tile)}
    (h : BfsInv m conv ctx ⟨q, v, vs⟩) : BfsInv m conv ctx ⟨q', v, vs⟩ := h

theorem inv_extend_visited {Tile Ctx : Type} {m : Map Tile}
    {conv : Tile → Point → Ctx → Traversable} {ctx : Ctx}
    {q q' : List Point} {v : List Nat} {vs : List (Point × Tile)} {i : Nat}
    (h : BfsInv m conv ctx ⟨q, v, vs⟩) :
    BfsInv m conv ctx ⟨q', i :: v, vs⟩ :=
  ⟨h.1, h.2.1, fun pt hpt =>
    (h.2.2 pt hpt).imp fun j hj => ⟨hj.1, List.mem_cons_of_mem _ hj.2⟩⟩

theorem inv_fresh_visit {Tile Ctx : Type} {m : Map Tile}
    {conv : Tile → Point → Ctx → Traversable} {ctx : Ctx}
    {q q' : List Point} {v : List Nat} {vs : List (Point × Tile)}
    {point : Point} {tile : Tile} {index : Nat}
    (hidx : m.point2index? point = some index) (hvis : index ∉ v)
    (hObs : conv tile point ctx ≠ Traversable.Obstructed)
    (h : BfsInv m conv ctx ⟨q, v, vs⟩) :
    BfsInv m conv ctx ⟨q', index :: v, vs ++ [(point, tile)]⟩ := by
  obtain ⟨h1, h2, h3⟩ := h
  refine ⟨?_, ?_, ?_⟩
  · intro pt hpt
    rcases List.mem_append.mp hpt with hmem | hmem
    · exact h1 pt hmem
    · rw [List.mem_singleton] at hmem
      subst hmem
      exact hObs
  · rw [List.map_append, List.nodup_append]
    refine ⟨h2, List.nodup_singleton _, ?_⟩
    intro a ha hb
    simp only [List.map_cons, List.map_nil, List.mem_singleton] at hb
    subst hb
    obtain ⟨pt, hpt, hpt2⟩ := List.mem_map.mp ha
    obtain ⟨i, hi1, hi2⟩ := h3 pt hpt
    rw [hi1, hidx] at hpt2
    cases hpt2
    exact hvis hi2
  · intro pt hpt
    rcases List.mem_append.mp hpt with hmem | hmem
    · exact (h3 pt hmem).imp fun j hj => ⟨hj.1, List.mem_cons_of_mem _ hj.2⟩
    · rw [List.mem_singleton] at hmem
      subst hmem
      exact ⟨index, hidx, List.mem_cons_self _ _⟩

theorem bfsStep_inv {Tile Ctx : Type} (m : Map Tile)
    (conv : Tile → Point → Ctx → Traversable) (ctx : Ctx)
    (visit : Point → Tile → Bool) (s : BfsState Tile)
    (h : BfsInv m conv ctx s) :
    BfsInv m conv ctx (bfsStepState (bfsStep m conv ctx visit s)) := by
  obtain ⟨queue, visited, visits⟩ := s
  cases queue with
  | nil => exact h
  | cons point rest =>
    simp only [bfsStep]
    cases hidx : m.point2index? point with
    | none => exact h
    | some index =>
      dsimp only
      by_cases hlen : index < m.tiles.length
      · rw [if_pos hlen]
        by_cases hvis : index ∈ visited
        · rw [if_pos hvis]
          exact inv_requeue h
        · rw [if_neg hvis]
          cases hg : m.get? point with
          | none => exact inv_extend_visited h
          | some tile =>
            dsimp only
            by_cases hObs : conv tile point ctx = Traversable.Obstructed
            · rw [if_pos hObs]
              exact inv_extend_visited h
            · rw [if_neg hObs]
              by_cases hv : visit point tile = true
              · rw [if_pos hv]
                exact inv_fresh_visit hidx hvis hObs h
              · rw [if_neg hv]
                by_cases hfree : conv tile point ctx = Traversable.Free
                · rw [if_pos hfree]
                  cases hns : filterFresh m (index :: visited)
                      (m.orthogonal_adjacencies point) with
                  | none => exact inv_fresh_visit hidx hvis hObs h
                  | some ns => exact inv_fresh_visit hidx hvis hObs h
                · rw [if_neg hfree]
                  exact inv_fresh_visit hidx hvis hObs h
      · rw [if_neg hlen]
        exact h

theorem bfsRun_inv {Tile Ctx : Type} (m : Map Tile)
    (conv : Tile → Point → Ctx → Traversable) (ctx : Ctx)
    (visit : Point → Tile → Bool) :
    ∀ (fuel : Nat) (s : BfsState Tile), BfsInv m conv ctx s →
      BfsInv m conv ctx (bfsOutState (bfsRun m conv ctx visit fuel s)) := by
  intro fuel
  induction fuel with
  | zero => intro s h; exact h
  | succ fuel ih =>
    intro s h
    have hstep := bfsStep_inv m conv ctx visit s h
    simp only [bfsRun]
    cases hbs : bfsStep m conv ctx visit s with
    | done s1 => rw [hbs] at hstep; exact hstep
    | panicked s1 => rw [hbs] at hstep; exact hstep
    | cont s1 => rw [hbs] at hstep; exact ih s1 hstep

/-- C2: during any call of the reachability walk the visitor is never
invoked on a tile whose context conversion classifies it `Obstructed`, and
never twice for the same point; and on the all-Free 5-by-4 grid, started
from any of its points with a visitor that always returns `false`, the
walk finishes with exactly `width * height = 20` visitor invocations. -/
theorem c2_reachable_visit_guarantees {Tile Ctx : Type} (m : Map Tile)
    (conv : Tile → Point → Ctx → Traversable) (ctx : Ctx)
    (visit : Point → Tile → Bool) (start : Point) (fuel : Nat) :
    (((bfsOutState (bfsRun m conv ctx visit fuel (initBfs start))).visits.map
        Prod.fst).Nodup ∧
      ∀ pt ∈ (bfsOutState (bfsRun m conv ctx visit fuel (initBfs start))).visits,
        conv pt.2 pt.1 ctx ≠ Traversable.Obstructed) ∧
    (∀ x : Fin 5, ∀ y : Fin 4,
      bfsVisitCount (reachable_from_ctx map5x4 convFree ()
        ⟨((x : Nat) : Int), ((y : Nat) : Int)⟩ (fun _ _ => false)) = some 20) := by
  have hinit : BfsInv m conv ctx (initBfs start) :=
    ⟨fun pt hpt => absurd hpt (List.not_mem_nil pt),
      List.nodup_nil,
      fun pt hpt => absurd hpt (List.not_mem_nil pt)⟩
  have hrun := bfsRun_inv m conv ctx visit fuel (initBfs start) hinit
  obtain ⟨h1, h2, h3⟩ := hrun
  refine ⟨⟨?_, h1⟩, ?_⟩
  · have heq : (bfsOutState (bfsRun m conv ctx visit fuel (initBfs start))).visits.map
        (fun pt => m.point2index? pt.1) =
        ((bfsOutState (bfsRun m conv ctx visit fuel (initBfs start))).visits.map
          Prod.fst).map (fun p => m.point2index? p) := by
      rw [List.map_map]
      rfl
    rw [heq] at h2
    exact h2.of_map _
  · decide

theorem filterFresh_subset {Tile : Type} (m : Map Tile) (visited : List Nat) :
    ∀ (l res : List Point), filterFresh m visited l = some res →
      ∀ q ∈ res, q ∈ l := by
  intro l
  induction l with
  | nil =>
    intro res h q hq
    simp only [filterFresh] at h
    cases h
    cases hq
  | cons p ps ih =>
    intro res h q hq
    simp only [filterFresh] at h
    cases hpi : m.point2index? p with
    | none =>
      rw [hpi] at h
      dsimp only at h
      cases h
    | some i =>
      rw [hpi] at h
      dsimp only at h
      by_cases hl : i < m.tiles.length
      · rw [if_pos hl] at h
        cases hrec : filterFresh m visited ps with
        | none => rw [hrec] at h; cases h
        | some rest =>
          rw [hrec] at h
          cases h
          by_cases hmem : i ∈ visited
          · rw [if_pos hmem] at hq
            exact List.mem_cons_of_mem _ (ih rest hrec q hq)
          · rw [if_neg hmem] at hq
            cases hq with
            | head => exact List.mem_cons_self _ _
            | tail _ hq2 => exact List.mem_cons_of_mem _ (ih rest hrec q hq2)
      · rw [if_neg hl] at h
        cases h

theorem qinv_shrink {Tile Ctx : Type} {m : Map Tile}
    {conv : Tile → Point → Ctx → Traversable} {ctx : Ctx} {start : Point}
    {point : Point} {rest : List Point} {v v' : List Nat}
    {vs : List (Point × Tile)}
    (h : BfsQueueInv m conv ctx start ⟨point :: rest, v, vs⟩) :
    BfsQueueInv m conv ctx start ⟨rest, v', vs⟩ :=
  fun q hq => h q (List.mem_cons_of_mem _ hq)

theorem qinv_shrink_grow_visits {Tile Ctx : Type} {m : Map Tile}
    {conv : Tile → Point → Ctx → Traversable} {ctx : Ctx} {start : Point}
    {point : Point} {rest : List Point} {v v' : List Nat}
    {vs : List (Point × Tile)} {pt : Point × Tile}
    (h : BfsQueueInv m conv ctx start ⟨point :: rest, v, vs⟩) :
    BfsQueueInv m conv ctx start ⟨rest, v', vs ++ [pt]⟩ := by
  intro q hq
  rcases h q (List.mem_cons_of_mem _ hq) with hs | ⟨p, t, hmem, hfree, hadj⟩
  · exact Or.inl hs
  · exact Or.inr ⟨p, t, List.mem_append_left _ hmem, hfree, hadj⟩

theorem bfsStep_qinv {Tile Ctx : Type} (m : Map Tile)
    (conv : Tile → Point → Ctx → Traversable) (ctx : Ctx)
    (visit : Point → Tile → Bool) (start : Point) (s : BfsState Tile)
    (h : BfsQueueInv m conv ctx start s) :
    BfsQueueInv m conv ctx start (bfsStepState (bfsStep m conv ctx visit s)) := by
  obtain ⟨queue, visited, visits⟩ := s
  cases queue with
  | nil => exact h
  | cons point rest =>
    simp only [bfsStep]
    cases hidx : m.point2index? point with
    | none => exact h
    | some index =>
      dsimp only
      by_cases hlen : index < m.tiles.length
      · rw [if_pos hlen]
        by_cases hvis : index ∈ visited
        · rw [if_pos hvis]
          exact qinv_shrink h
        · rw [if_neg hvis]
          cases hg : m.get? point with
          | none => exact qinv_shrink h
          | some tile =>
            dsimp only
            by_cases hObs : conv tile point ctx = Traversable.Obstructed
            · rw [if_pos hObs]
              exact qinv_shrink h
            · rw [if_neg hObs]
              by_cases hv : visit point tile = true
              · rw [if_pos hv]
                exact qinv_shrink_grow_visits h
              · rw [if_neg hv]
                by_cases hfree : conv tile point ctx = Traversable.Free
                · rw [if_pos hfree]
                  cases hns : filterFresh m (index :: visited)
                      (m.orthogonal_adjacencies point) with
                  | none => exact qinv_shrink_grow_visits h
                  | some ns =>
                    intro q hq
                    rcases List.mem_append.mp hq with hq1 | hq2
                    · rcases h q (List.mem_cons_of_mem _ hq1) with
                        hs | ⟨p, t, hmem, hfree2, hadj⟩
                      · exact Or.inl hs
                      · exact Or.inr ⟨p, t, List.mem_append_left _ hmem,
                          hfree2, hadj⟩
                    · refine Or.inr ⟨point, tile, ?_, hfree, ?_⟩
                      · exact List.mem_append_right _ (List.mem_singleton_self _)
                      · exact filterFresh_subset m _ _ _ hns q hq2
                · rw [if_neg hfree]
                  exact qinv_shrink_grow_visits h
      · rw [if_neg hlen]
        exact h

theorem bfsRun_qinv {Tile Ctx : Type} (m : Map Tile)
    (conv : Tile → Point → Ctx → Traversable) (ctx : Ctx)
    (visit : Point → Tile → Bool) (start : Point) :
    ∀ (fuel : Nat) (s : BfsState Tile), BfsQueueInv m conv ctx start s →
      BfsQueueInv m conv ctx start
        (bfsOutState (bfsRun m conv ctx visit fuel s)) := by
  intro fuel
  induction fuel with
  | zero => intro s h; exact h
  | succ fuel ih =>
    intro s h
    have hstep := bfsStep_qinv m conv ctx visit start s h
    simp only [bfsRun]
    cases hbs : bfsStep m conv ctx visit s with
    | done s1 => rw [hbs] at hstep; exact hstep
    | panicked s1 => rw [hbs] at hstep; exact hstep
    | cont s1 => rw [hbs] at hstep; exact ih s1 hstep

/-- C7: in any state the reachability walk can reach, every queued point is
either the start or an in-bounds orthogonal neighbor of a visited point
classified `Free`; moreover one loop iteration on a fresh `Halt` tile
visits it but enqueues nothing on its account, and a fresh `Obstructed`
tile is neither visited nor expanded. -/
theorem c7_expand_only_free {Tile Ctx : Type} (m : Map Tile)
    (conv : Tile → Point → Ctx → Traversable) (ctx : Ctx)
    (visit : Point → Tile → Bool) (start : Point) (fuel : Nat) :
    BfsQueueInv m conv ctx start
      (bfsOutState (bfsRun m conv ctx visit fuel (initBfs start))) ∧
    (∀ (s : BfsState Tile) (point : Point) (rest : List Point)
        (index : Nat) (tile : Tile),
      s.queue = point :: rest →
      m.point2index? point = some index → index < m.tiles.length →
      index ∉ s.visited → m.get? point = some tile →
      ((conv tile point ctx = Traversable.Obstructed →
          bfsStep m conv ctx visit s =
            .cont ⟨rest, index :: s.visited, s.visits⟩) ∧
        (conv tile point ctx = Traversable.Halt →
          (visit point tile = true →
            bfsStep m conv ctx visit s =
              .done ⟨rest, index :: s.visited, s.visits ++ [(point, tile)]⟩) ∧
          (visit point tile = false →
            bfsStep m conv ctx visit s =
              .cont ⟨rest, index :: s.visited, s.visits ++ [(point, tile)]⟩)))) := by
  constructor
  · apply bfsRun_qinv
    intro q hq
    cases hq with
    | head => exact Or.inl rfl
    | tail _ hq2 => exact absurd hq2 (List.not_mem_nil q)
  · intro s point rest index tile hq hidx hlen hvis hg
    obtain ⟨queue, visited, visits⟩ := s
    dsimp at hq hvis hg ⊢
    subst hq
    refine ⟨?_, fun hHalt => ⟨?_, ?_⟩⟩
    · intro hObs
      simp only [bfsStep, hidx, hg]
      rw [if_pos hlen, if_neg hvis, if_pos hObs]
    · intro hv
      simp only [bfsStep, hidx, hg]
      rw [if_pos hlen, if_neg hvis,
        if_neg (by rw [hHalt]; intro hc; cases hc), if_pos hv]
    · intro hv
      simp only [bfsStep, hidx, hg]
      rw [if_pos hlen, if_neg hvis,
        if_neg (by rw [hHalt]; intro hc; cases hc),
        if_neg (by rw [hv]; intro hc; cases hc),
        if_neg (by rw [hHalt]; intro hc; cases hc)]

/-- C7 witness: the invariant instantiated after one step on the concrete
5-by-4 grid, and the step facts instantiated on a concrete state. -/
theorem c7_expand_only_free_witness :
    BfsQueueInv map5x4 convFree () ⟨0, 0⟩
      (bfsOutState (bfsRun map5x4 convFree () (fun _ _ => false) 3
        (initBfs ⟨0, 0⟩))) := by
  exact (c7_expand_only_free map5x4 convFree () (fun _ _ => false) ⟨0, 0⟩ 3).1

/-- C10: whenever the start and goal coincide, `navigate_ctx` pops the
start node first, matches the goal immediately and returns the empty
direction sequence — the start tile's traversability and bounds are never
consulted (this holds for every map, context and conversion, with no
assumption on the start point). -/
theorem c10_navigate_self {Tile Ctx : Type} (m : Map Tile)
    (conv : Tile → Point → Ctx → Traversable) (ctx : Ctx) (p : Point)
    (fuel : Nat) :
    navRun m conv ctx p (fuel + 1) (initNav p p) = .ret (some []) ∧
    navigate_ctx m conv ctx p p = .ret (some []) := by
  have hpop : popMax [⟨0, p⟩] = some (⟨0, p⟩, []) := by
    simp [popMax, heapMax, List.erase_cons_head]
  have hstep : navStep m conv ctx p (initNav p p) = .ret (some []) := by
    simp only [navStep, initNav, hpop]
    rw [if_pos trivial]
    rfl
  constructor
  · simp only [navRun, hstep]
  · show navRun m conv ctx p (navFuel m) (initNav p p) = _
    have hf : navFuel m = (m.width * m.height + 2) + 1 := rfl
    rw [hf]
    simp only [navRun, hstep]

/-- C3 counterexample: the very first node pushed onto the open set by
`navigate_ctx` (the start node) carries priority 0, which is its g-cost;
with start `(0, 0)` and goal `(3, 2)` its Manhattan distance to the goal
is 5, so its priority is not `g + h`: the open set priorities are g-costs,
not f-scores. -/
theorem c3_priority_is_g_cex :
    (initNav ⟨0, 0⟩ ⟨3, 2⟩).open_set = [⟨0, ⟨0, 0⟩⟩] ∧
      alGet (initNav ⟨0, 0⟩ ⟨3, 2⟩).cheapest_path_cost ⟨0, 0⟩ = some 0 ∧
      Point.manhattan ((⟨3, 2⟩ : Point) - ⟨0, 0⟩) = 5 ∧
      (0 : Nat) ≠ 0 + 5 := by decide

/-- C6 counterexample: on a 1-by-1 map with offset `(-1, 0)`, the
reachability walk started at the in-bounds point `(-1, 0)` reads the start
tile through `Index<Point>` and hits the positive-quadrant assertion: the
in-bounds filter does not prevent indexing with a negative coordinate. -/
theorem c6_negative_offset_panics_cex :
    isPanicked (reachable_from_ctx mapNegOff convFree () ⟨-1, 0⟩
        (fun _ _ => false)) = true ∧
      mapNegOff.in_bounds ⟨-1, 0⟩ = true := by decide

theorem in_bounds_iff {Tile : Type} (m : Map Tile) (p : Point) :
    m.in_bounds p = true ↔
      m.offset.x ≤ p.x ∧ m.offset.y ≤ p.y ∧
        p.x ≤ m.offset.x + (m.width : Int) - 1 ∧
        p.y ≤ m.offset.y + (m.height : Int) - 1 := by
  simp [Map.in_bounds, Map.low_x, Map.low_y, Map.high_x, Map.high_y,
    and_assoc]

theorem index_of_in_bounds {Tile : Type} (m : Map Tile) (p : Point)
    (hb : m.in_bounds p = true) :
    ∃ i, m.point2index? p = some i ∧ i < m.width * m.height := by
  obtain ⟨h1, h2, h3, h4⟩ := (in_bounds_iff m p).mp hb
  have hw : 1 ≤ m.width := by omega
  have hh : 1 ≤ m.height := by omega
  refine ⟨(p.x - m.offset.x).toNat + (p.y - m.offset.y).toNat * m.width,
    ?_, ?_⟩
  · simp only [Map.point2index?]
    rw [if_pos ⟨by omega, by omega⟩]
  · exact idx_lt_of _ _ _ _ (by omega) (by omega)

theorem get?_of_in_bounds {Tile : Type} (m : Map Tile) (p : Point)
    (hinv : m.tiles.length = m.width * m.height)
    (hx : 0 ≤ m.offset.x) (hy : 0 ≤ m.offset.y)
    (hb : m.in_bounds p = true) : ∃ t, m.get? p = some t := by
  obtain ⟨h1, h2, h3, h4⟩ := (in_bounds_iff m p).mp hb
  obtain ⟨i, hi, hlt⟩ := index_of_in_bounds m p hb
  refine ⟨m.tiles.get ⟨i, by omega⟩, ?_⟩
  simp only [Map.get?]
  rw [if_pos ⟨by omega, by omega⟩, hi]
  show m.tiles[i]? = _
  rw [List.getElem?_eq_getElem (by omega)]
  rfl

theorem tileAt?_of_in_bounds {Tile : Type} (m : Map Tile) (p : Point)
    (hinv : m.tiles.length = m.width * m.height)
    (hb : m.in_bounds p = true) : ∃ t, m.tileAt? p = some t := by
  obtain ⟨i, hi, hlt⟩ := index_of_in_bounds m p hb
  refine ⟨m.tiles.get ⟨i, by omega⟩, ?_⟩
  simp only [Map.tileAt?]
  rw [hi]
  show m.tiles[i]? = _
  rw [List.getElem?_eq_getElem (by omega)]
  rfl

theorem get?_eq_tileAt? {Tile : Type} (m : Map Tile) (p : Point)
    (hx : 0 ≤ m.offset.x) (hy : 0 ≤ m.offset.y)
    (hb : m.in_bounds p = true) : m.get? p = m.tileAt? p := by
  obtain ⟨h1, h2, h3, h4⟩ := (in_bounds_iff m p).mp hb
  simp only [Map.get?, Map.tileAt?]
  rw [if_pos ⟨by omega, by omega⟩]

theorem filterFresh_total {Tile : Type} (m : Map Tile)
    (hinv : m.tiles.length = m.width * m.height) (visited : List Nat) :
    ∀ l : List Point, (∀ q ∈ l, m.in_bounds q = true) →
      ∃ res, filterFresh m visited l = some res := by
  intro l
  induction l with
  | nil => intro _; exact ⟨[], rfl⟩
  | cons p ps ih =>
    intro hb
    obtain ⟨i, hi, hlt⟩ := index_of_in_bounds m p (hb p (List.mem_cons_self _ _))
    obtain ⟨res, hres⟩ := ih (fun q hq => hb q (List.mem_cons_of_mem _ hq))
    refine ⟨if i ∈ visited then res else p :: res, ?_⟩
    simp only [filterFresh, hi, hres]
    rw [if_pos (by omega)]

theorem orth_in_bounds {Tile : Type} (m : Map Tile) (p : Point) :
    ∀ q ∈ m.orthogonal_adjacencies p, m.in_bounds q = true := by
  intro q hq
  simp only [Map.orthogonal_adjacencies] at hq
  exact List.of_mem_filter hq

theorem bfs_no_panic {Tile Ctx : Type} (m : Map Tile)
    (conv : Tile → Point → Ctx → Traversable) (ctx : Ctx)
    (visit : Point → Tile → Bool)
    (hinv : m.tiles.length = m.width * m.height)
    (hx : 0 ≤ m.offset.x) (hy : 0 ≤ m.offset.y) :
    ∀ (fuel : Nat) (s : BfsState Tile),
      (∀ q ∈ s.queue, m.in_bounds q = true) →
      isPanicked (bfsRun m conv ctx visit fuel s) = false := by
  intro fuel
  induction fuel with
  | zero => intro s _; rfl
  | succ fuel ih =>
    intro s hq
    obtain ⟨queue, visited, visits⟩ := s
    simp only [bfsRun]
    cases queue with
    | nil => rfl
    | cons point rest =>
      have hbp : m.in_bounds point = true := hq point (List.mem_cons_self _ _)
      have hrest : ∀ q ∈ rest, m.in_bounds q = true :=
        fun q hmem => hq q (List.mem_cons_of_mem _ hmem)
      obtain ⟨index, hidx, hlt⟩ := index_of_in_bounds m point hbp
      obtain ⟨tile, htile⟩ := get?_of_in_bounds m point hinv hx hy hbp
      simp only [bfsStep, hidx, htile]
      rw [if_pos (by omega)]
      by_cases hvis : index ∈ visited
      · rw [if_pos hvis]
        exact ih _ hrest
      · rw [if_neg hvis]
        by_cases hObs : conv tile point ctx = Traversable.Obstructed
        · rw [if_pos hObs]
          exact ih _ hrest
        · rw [if_neg hObs]
          by_cases hv : visit point tile = true
          · rw [if_pos hv]
            rfl
          · rw [if_neg hv]
            by_cases hfree : conv tile point ctx = Traversable.Free
            · rw [if_pos hfree]
              obtain ⟨ns, hns⟩ := filterFresh_total m hinv (index :: visited)
                (m.orthogonal_adjacencies point) (orth_in_bounds m point)
              rw [hns]
              apply ih
              intro q hmem
              rcases List.mem_append.mp hmem with h1 | h2
              · exact hrest q h1
              · exact orth_in_bounds m point q
                  (filterFresh_subset m _ _ _ hns q h2)
            · rw [if_neg hfree]
              exact ih _ hrest

theorem relaxNeighbors_total {Tile Ctx : Type} (m : Map Tile)
    (conv : Tile → Point → Ctx → Traversable) (ctx : Ctx) (goal : Point)
    (cost : Nat) (position : Point)
    (hinv : m.tiles.length = m.width * m.height)
    (hx : 0 ≤ m.offset.x) (hy : 0 ≤ m.offset.y) :
    ∀ (dirs : List Direction) (s : NavState),
      ∃ s1, relaxNeighbors m conv ctx goal cost position dirs s = some s1 := by
  intro dirs
  induction dirs with
  | nil => intro s; exact ⟨s, rfl⟩
  | cons dir dirs ih =>
    intro s
    simp only [relaxNeighbors]
    by_cases hb : m.in_bounds (position + dir) = true
    · rw [if_pos hb]
      obtain ⟨tile, htile⟩ := get?_of_in_bounds m (position + dir) hinv hx hy hb
      rw [htile]
      dsimp only
      cases hc : conv tile (position + dir) ctx with
      | Obstructed => exact ih s
      | Free =>
        dsimp only
        by_cases hbet : (match alGet s.cheapest_path_cost (position + dir) with
          | none => true
          | some c => decide (cost + 1 < c)) = true
        · rw [if_pos hbet]; exact ih _
        · rw [if_neg hbet]; exact ih s
      | Halt =>
        dsimp only
        by_cases hbet : (match alGet s.cheapest_path_cost (position + dir) with
          | none => true
          | some c => decide (cost + 1 < c)) = true
        · rw [if_pos hbet]; exact ih _
        · rw [if_neg hbet]; exact ih s
    · rw [if_neg hb]
      exact ih s

theorem nav_no_panic {Tile Ctx : Type} (m : Map Tile)
    (conv : Tile → Point → Ctx → Traversable) (ctx : Ctx) (goal : Point)
    (hinv : m.tiles.length = m.width * m.height)
    (hx : 0 ≤ m.offset.x) (hy : 0 ≤ m.offset.y) :
    ∀ (fuel : Nat) (s : NavState),
      navRun m conv ctx goal fuel s ≠ .panicked := by
  intro fuel
  induction fuel with
  | zero => intro s h; cases h
  | succ fuel ih =>
    intro s
    simp only [navRun, navStep]
    cases hpop : popMax s.open_set with
    | none =>
      dsimp only
      intro h
      cases h
    | some nr =>
      obtain ⟨n, rest⟩ := nr
      dsimp only
      by_cases hg : n.position = goal
      · rw [if_pos hg]
        intro h
        cases h
      · rw [if_neg hg]
        obtain ⟨s1, hs1⟩ := relaxNeighbors_total m conv ctx goal n.cost
          n.position hinv hx hy Direction.list { s with open_set := rest }
        rw [hs1]
        exact ih s1

/-- C6 (amended): for maps whose offset has nonnegative coordinates and
whose tile buffer has the invariant length, the reachability walk started
from an in-bounds point, and the shortest-path search from any start and
goal, never violate the indexing preconditions: every point they read is
first filtered through the in-bounds check, and under a nonnegative offset
that check also rules out negative coordinates, so neither search ever
panics. -/
theorem c6_search_no_panic {Tile Ctx : Type} (m : Map Tile)
    (conv : Tile → Point → Ctx → Traversable) (ctx : Ctx)
    (visit : Point → Tile → Bool) (start goal : Point)
    (hinv : m.tiles.length = m.width * m.height)
    (hx : 0 ≤ m.offset.x) (hy : 0 ≤ m.offset.y)
    (hstart : m.in_bounds start = true) :
    (∀ fuel, isPanicked (bfsRun m conv ctx visit fuel (initBfs start)) = false) ∧
    (∀ fuel s, navRun m conv ctx goal fuel s ≠ .panicked) := by
  constructor
  · intro fuel
    apply bfs_no_panic m conv ctx visit hinv hx hy
    intro q hq
    cases hq with
    | head => exact hstart
    | tail _ hmem => exact absurd hmem (List.not_mem_nil q)
  · exact nav_no_panic m conv ctx goal hinv hx hy

/-- C6 witness: the amended statement instantiated on the concrete 5-by-4
grid with start `(0, 0)`. -/
theorem c6_search_no_panic_witness :
    (map5x4.tiles.length = map5x4.width * map5x4.height ∧
        0 ≤ map5x4.offset.x ∧ 0 ≤ map5x4.offset.y ∧
        map5x4.in_bounds ⟨0, 0⟩ = true) ∧
      ((∀ fuel, isPanicked (bfsRun map5x4 convFree () (fun _ _ => false) fuel
          (initBfs ⟨0, 0⟩)) = false) ∧
        (∀ fuel s, navRun map5x4 convFree () ⟨3, 2⟩ fuel s ≠ .panicked)) :=
  ⟨⟨rfl, by decide, by decide, by decide⟩,
    c6_search_no_panic map5x4 convFree () (fun _ _ => false) ⟨0, 0⟩ ⟨3, 2⟩
      rfl (by decide) (by decide) (by decide)⟩

theorem alGet_insert_same {β : Type} (l : List (Point × β)) (p : Point)
    (b : β) : alGet (alInsert l p b) p = some b := by
  simp [alInsert, alGet]

theorem alGet_insert_other {β : Type} (l : List (Point × β)) (p q : Point)
    (b : β) (h : q ≠ p) : alGet (alInsert l p b) q = alGet l q := by
  simp only [alInsert, alGet]
  rw [if_neg (fun hc => h hc.symm)]
  induction l with
  | nil => rfl
  | cons e es ih =>
    simp only [List.filter]
    by_cases he : e.1 = p
    · rw [show (decide (e.1 ≠ p)) = false by simp [he]]
      rw [show alGet (e :: es) q = alGet es q by
        simp only [alGet]; rw [if_neg (fun hc => h (hc.symm.trans he))]]
      exact ih
    · rw [show (decide (e.1 ≠ p)) = true by simp [he]]
      simp only [alGet]
      by_cases heq : e.1 = q
      · rw [if_pos heq, if_pos heq]
      · rw [if_neg heq, if_neg heq]
        exact ih

theorem alGet_mem_keys {β : Type} :
    ∀ (l : List (Point × β)) (p : Point) (b : β),
      alGet l p = some b → p ∈ l.map Prod.fst := by
  intro l
  induction l with
  | nil => intro p b h; cases h
  | cons e es ih =>
    intro p b h
    simp only [alGet] at h
    by_cases he : e.1 = p
    · simp [List.map_cons, he.symm ▸ List.mem_cons_self e.1 (es.map Prod.fst), he]
    · rw [if_neg he] at h
      exact List.mem_cons_of_mem _ (ih p b h)

theorem mem_keys_alGet {β : Type} :
    ∀ (l : List (Point × β)) (p : Point),
      p ∈ l.map Prod.fst → ∃ b, alGet l p = some b := by
  intro l
  induction l with
  | nil => intro p h; cases h
  | cons e es ih =>
    intro p h
    simp only [alGet]
    by_cases he : e.1 = p
    · rw [if_pos he]; exact ⟨e.2, rfl⟩
    · rw [if_neg he]
      apply ih
      rcases List.mem_map.mp h with ⟨x, hx, hfst⟩
      rcases List.mem_cons.mp hx with h1 | h2
      · exact absurd (h1 ▸ hfst) he
      · exact List.mem_map.mpr ⟨x, h2, hfst⟩

theorem alGet_none_of_not_mem {β : Type} (l : List (Point × β)) (p : Point)
    (h : p ∉ l.map Prod.fst) : alGet l p = none := by
  cases hg : alGet l p with
  | none => rfl
  | some b => exact absurd (alGet_mem_keys l p b hg) h

theorem mem_keys_insert {β : Type} (l : List (Point × β)) (p q : Point)
    (b : β) : q ∈ (alInsert l p b).map Prod.fst ↔
      q = p ∨ q ∈ l.map Prod.fst := by
  simp only [alInsert, List.map_cons, List.mem_cons]
  constructor
  · rintro (h | h)
    · exact Or.inl h
    · rcases List.mem_map.mp h with ⟨x, hx, hfst⟩
      exact Or.inr (List.mem_map.mpr ⟨x, List.mem_of_mem_filter hx, hfst⟩)
  · rintro (h | h)
    · exact Or.inl h
    · by_cases hq : q = p
      · exact Or.inl hq
      · refine Or.inr ?_
        rcases List.mem_map.mp h with ⟨x, hx, hfst⟩
        refine List.mem_map.mpr ⟨x, List.mem_filter.mpr ⟨hx, ?_⟩, hfst⟩
        simp [hfst, hq]

theorem nodup_keys_insert {β : Type} (l : List (Point × β)) (p : Point)
    (b : β) (h : (l.map Prod.fst).Nodup) :
    ((alInsert l p b).map Prod.fst).Nodup := by
  simp only [alInsert, List.map_cons, List.nodup_cons]
  constructor
  · intro hmem
    rcases List.mem_map.mp hmem with ⟨x, hx, hfst⟩
    have := (List.mem_filter.mp hx).2
    rw [hfst] at this
    simp at this
  · have hsub : (l.filter (fun e => decide (e.1 ≠ p))).map Prod.fst
        |>.Sublist (l.map Prod.fst) :=
      (List.filter_sublist l).map Prod.fst
    exact h.sublist hsub

/-- Each node popped by `popMax` is a member of the open set. -/
theorem heapMax_mem : ∀ (xs : List AStarNode) (x : AStarNode),
    heapMax x xs ∈ x :: xs := by
  intro xs
  induction xs with
  | nil => intro x; exact List.mem_singleton_self x
  | cons y ys ih =>
    intro x
    show heapMax (if AStarNode.cmp y x = .gt then y else x) ys ∈ x :: y :: ys
    by_cases hc : AStarNode.cmp y x = .gt
    · rw [if_pos hc]
      rcases List.mem_cons.mp (ih y) with h | h
      · rw [h]
        exact List.mem_cons_of_mem _ (List.mem_cons_self _ _)
      · exact List.mem_cons_of_mem _ (List.mem_cons_of_mem _ h)
    · rw [if_neg hc]
      rcases List.mem_cons.mp (ih x) with h | h
      · rw [h]
        exact List.mem_cons_self _ _
      · exact List.mem_cons_of_mem _ (List.mem_cons_of_mem _ h)

theorem then_eq_gt (o1 o2 : Ordering) :
    o1.then o2 = .gt ↔ o1 = .gt ∨ (o1 = .eq ∧ o2 = .gt) := by
  cases o1 <;> simp [Ordering.then]

theorem pcmp_eq_gt (p q : Point) :
    Point.cmp p q = .gt ↔ q.x < p.x ∨ (p.x = q.x ∧ q.y < p.y) := by
  simp only [Point.cmp, then_eq_gt, compare_gt_iff_gt, compare_eq_iff_eq]

theorem cmp_eq_gt (a b : AStarNode) :
    AStarNode.cmp a b = .gt ↔
      a.cost < b.cost ∨ (b.cost = a.cost ∧
        (b.position.x < a.position.x ∨
          (a.position.x = b.position.x ∧ b.position.y < a.position.y))) := by
  simp only [AStarNode.cmp, then_eq_gt, compare_gt_iff_gt, compare_eq_iff_eq,
    pcmp_eq_gt]

theorem cmp_self_ne_gt (a : AStarNode) : AStarNode.cmp a a ≠ .gt := by
  intro h
  rw [cmp_eq_gt] at h
  omega

theorem cmp_total (a b : AStarNode)
    (h1 : AStarNode.cmp a b ≠ .gt) (h2 : AStarNode.cmp b a ≠ .gt) :
    a.cost = b.cost ∧ a.position = b.position := by
  simp only [ne_eq, cmp_eq_gt] at h1 h2
  have hx : a.position.x = b.position.x ∧ a.position.y = b.position.y := by
    omega
  exact ⟨by omega, by
    have := hx
    obtain ⟨e1, e2⟩ := this
    cases ha : a.position
    cases hb : b.position
    rw [ha, hb] at e1 e2
    simp at e1 e2
    simp [e1, e2]⟩

theorem cmp_trans_ne_gt (a b c : AStarNode)
    (h1 : AStarNode.cmp a b ≠ .gt) (h2 : AStarNode.cmp b c ≠ .gt) :
    AStarNode.cmp a c ≠ .gt := by
  simp only [ne_eq, cmp_eq_gt] at h1 h2 ⊢
  omega

/-- The scanned maximum beats every element: no candidate compares greater
than it. -/
theorem heapMax_ge : ∀ (xs : List AStarNode) (x : AStarNode),
    ∀ z ∈ x :: xs, AStarNode.cmp z (heapMax x xs) ≠ .gt := by
  intro xs
  induction xs with
  | nil =>
    intro x z hz
    rcases List.mem_cons.mp hz with h | h
    · subst h
      exact cmp_self_ne_gt z
    · cases h
  | cons y ys ih =>
    intro x z hz
    show AStarNode.cmp z (heapMax (if AStarNode.cmp y x = .gt then y else x) ys) ≠ .gt
    by_cases hc : AStarNode.cmp y x = .gt
    · rw [if_pos hc]
      rcases List.mem_cons.mp hz with h | h
      · subst h
        have hxy : AStarNode.cmp z y ≠ .gt := by
          simp only [ne_eq, cmp_eq_gt]
          rw [cmp_eq_gt] at hc
          omega
        exact cmp_trans_ne_gt z y _ hxy (ih y y (List.mem_cons_self _ _))
      · rcases List.mem_cons.mp h with h2 | h2
        · exact ih y z (by rw [h2]; exact List.mem_cons_self _ _)
        · exact ih y z (List.mem_cons_of_mem _ h2)
    · rw [if_neg hc]
      rcases List.mem_cons.mp hz with h | h
      · exact ih x z (by rw [h]; exact List.mem_cons_self _ _)
      · rcases List.mem_cons.mp h with h2 | h2
        · refine cmp_trans_ne_gt z x _ ?_ (ih x x (List.mem_cons_self _ _))
          rw [h2]
          exact hc
        · exact ih x z (List.mem_cons_of_mem _ h2)

theorem popMax_mem {l : List AStarNode} {n : AStarNode}
    {rest : List AStarNode} (h : popMax l = some (n, rest)) : n ∈ l := by
  cases l with
  | nil => cases h
  | cons x xs =>
    simp only [popMax] at h
    cases h
    exact heapMax_mem xs x

theorem popMax_perm {l : List AStarNode} {n : AStarNode}
    {rest : List AStarNode} (h : popMax l = some (n, rest)) :
    l.Perm (n :: rest) := by
  cases l with
  | nil => cases h
  | cons x xs =>
    simp only [popMax] at h
    cases h
    exact List.perm_cons_erase (heapMax_mem xs x)

theorem popMax_le {l : List AStarNode} {n : AStarNode}
    {rest : List AStarNode} (h : popMax l = some (n, rest)) :
    ∀ z ∈ l, AStarNode.cmp z n ≠ .gt := by
  cases l with
  | nil => cases h
  | cons x xs =>
    simp only [popMax] at h
    cases h
    exact heapMax_ge xs x

theorem popMax_min_cost {l : List AStarNode} {n : AStarNode}
    {rest : List AStarNode} (h : popMax l = some (n, rest)) :
    ∀ z ∈ l, n.cost ≤ z.cost := by
  intro z hz
  have := popMax_le h z hz
  simp only [ne_eq, cmp_eq_gt] at this
  omega

theorem popMax_tie {l : List AStarNode} {n : AStarNode}
    {rest : List AStarNode} (h : popMax l = some (n, rest)) :
    ∀ z ∈ l, z.cost = n.cost → Point.cmp z.position n.position ≠ .gt := by
  intro z hz heq
  have := popMax_le h z hz
  simp only [ne_eq, cmp_eq_gt] at this
  simp only [ne_eq, pcmp_eq_gt]
  omega

theorem popMax_none {l : List AStarNode} (h : popMax l = none) : l = [] := by
  cases l with
  | nil => rfl
  | cons x xs => cases h

theorem alGet_remove_self {β : Type} (l : List (Point × β)) (p : Point) :
    alGet (alRemove l p) p = none := by
  induction l with
  | nil => rfl
  | cons e es ih =>
    simp only [alRemove, List.filter]
    by_cases he : e.1 = p
    · rw [show (decide (e.1 ≠ p)) = false by simp [he]]
      exact ih
    · rw [show (decide (e.1 ≠ p)) = true by simp [he]]
      simp only [alGet]
      rw [if_neg he]
      exact ih

theorem alGet_remove_other {β : Type} (l : List (Point × β)) (p q : Point)
    (h : q ≠ p) : alGet (alRemove l p) q = alGet l q := by
  induction l with
  | nil => rfl
  | cons e es ih =>
    simp only [alRemove, List.filter]
    by_cases he : e.1 = p
    · rw [show (decide (e.1 ≠ p)) = false by simp [he]]
      rw [show alGet (e :: es) q = alGet es q by
        simp only [alGet]; rw [if_neg (fun hc => h (hc.symm.trans he))]]
      exact ih
    · rw [show (decide (e.1 ≠ p)) = true by simp [he]]
      simp only [alGet]
      by_cases heq : e.1 = q
      · rw [if_pos heq, if_pos heq]
      · rw [if_neg heq, if_neg heq]
        exact ih

theorem alRemove_length_lt {β : Type} (l : List (Point × β)) (p : Point)
    (b : β) (h : alGet l p = some b) :
    (alRemove l p).length < l.length := by
  induction l with
  | nil => cases h
  | cons e es ih =>
    simp only [alGet] at h
    simp only [alRemove, List.filter]
    by_cases he : e.1 = p
    · rw [show (decide (e.1 ≠ p)) = false by simp [he]]
      exact Nat.lt_succ_of_le (List.length_filter_le _ _)
    · rw [if_neg he] at h
      rw [show (decide (e.1 ≠ p)) = true by simp [he]]
      simp only [List.length_cons]
      exact Nat.succ_lt_succ (ih h)

theorem pathOK_append {Tile Ctx : Type} (m : Map Tile)
    (conv : Tile → Point → Ctx → Traversable) (ctx : Ctx) :
    ∀ (ds1 ds2 : List Direction) (p r : Point),
      pathOK m conv ctx p (ds1 ++ ds2) r ↔
        ∃ mid, pathOK m conv ctx p ds1 mid ∧ pathOK m conv ctx mid ds2 r := by
  intro ds1
  induction ds1 with
  | nil =>
    intro ds2 p r
    simp only [List.nil_append, pathOK]
    constructor
    · intro h
      exact ⟨p, rfl, h⟩
    · rintro ⟨mid, rfl, h⟩
      exact h
  | cons d ds ih =>
    intro ds2 p r
    simp only [List.cons_append, pathOK]
    constructor
    · rintro ⟨hs, h1⟩
      obtain ⟨mid, h2, h3⟩ := (ih ds2 (p + d) r).mp h1
      exact ⟨mid, ⟨hs, h2⟩, h3⟩
    · rintro ⟨mid, ⟨hs, h1⟩, h2⟩
      exact ⟨hs, (ih ds2 (p + d) r).mpr ⟨mid, h1, h2⟩⟩

theorem pathOK_snoc {Tile Ctx : Type} (m : Map Tile)
    (conv : Tile → Point → Ctx → Traversable) (ctx : Ctx)
    (ds : List Direction) (d : Direction) (p r : Point) :
    pathOK m conv ctx p (ds ++ [d]) r ↔
      ∃ mid, pathOK m conv ctx p ds mid ∧ stepOK m conv ctx (mid + d) ∧
        r = mid + d := by
  rw [pathOK_append]
  constructor
  · rintro ⟨mid, h1, h2⟩
    obtain ⟨hs, heq⟩ := h2
    exact ⟨mid, h1, hs, heq.symm⟩
  · rintro ⟨mid, h1, hs, heq⟩
    exact ⟨mid, h1, hs, heq.symm⟩

theorem mem_closed_iff (S : NavState) (p : Point) :
    p ∈ closedPts S ↔
      p ∈ alKeys S.cheapest_path_cost ∧ p ∉ posList S.open_set := by
  simp [closedPts, List.mem_filter]

theorem alGet_singleton {β : Type} (a p : Point) (b : β) :
    alGet [(a, b)] p = if a = p then some b else none := rfl

theorem navInv_init {Tile Ctx : Type} (m : Map Tile)
    (conv : Tile → Point → Ctx → Traversable) (ctx : Ctx)
    (frm goal : Point)
    (hfrm : frm = frm ∨ m.in_bounds frm = true) :
    NavInv m conv ctx frm goal (initNav frm goal) := by
  have hclosed : ∀ p, p ∉ closedPts (initNav frm goal) := by
    intro p hp
    rw [mem_closed_iff] at hp
    obtain ⟨hk, hnp⟩ := hp
    simp only [initNav, alKeys, List.map_cons, List.map_nil,
      List.mem_singleton] at hk
    apply hnp
    simp only [initNav, posList, List.map_cons, List.map_nil]
    simp [hk]
  have hget : ∀ p c, alGet (initNav frm goal).cheapest_path_cost p = some c →
      p = frm ∧ c = 0 := by
    intro p c h
    have h2 : alGet [(frm, 0)] p = some c := h
    rw [alGet_singleton] at h2
    by_cases he : frm = p
    · rw [if_pos he] at h2
      cases h2
      exact ⟨he.symm, rfl⟩
    · rw [if_neg he] at h2
      cases h2
  refine ⟨?_, ?_, ?_, ?_, ?_, ?_, ?_, ?_, ?_, ?_, ?_, ?_, ?_, ?_⟩
  · show ([frm] : List Point).Nodup
    exact List.nodup_singleton frm
  · intro x hx
    rcases List.mem_cons.mp hx with h | h
    · subst h
      show alGet [(frm, 0)] frm = some 0
      rw [alGet_singleton, if_pos rfl]
    · cases h
  · intro x hx
    rcases List.mem_cons.mp hx with h | h
    · subst h
      show alGet [(frm, Point.manhattan (goal - frm))] frm = some _
      rw [alGet_singleton, if_pos rfl]
      rw [Nat.zero_add]
    · cases h
  · show alGet [(frm, 0)] frm = some 0
    rw [alGet_singleton, if_pos rfl]
  · intro x hx y hy
    rcases List.mem_cons.mp hx with h | h
    · rcases List.mem_cons.mp hy with h2 | h2
      · subst h
        subst h2
        omega
      · cases h2
    · cases h
  · intro p d q h
    cases h
  · intro p
    constructor
    · intro h; cases h
    · rintro ⟨hk, hne⟩
      simp only [initNav, alKeys, List.map_cons, List.map_nil,
        List.mem_singleton] at hk
      exact absurd hk hne
  · intro p c h
    obtain ⟨hp, hc⟩ := hget p c h
    subst hp
    subst hc
    exact ⟨[], rfl, rfl⟩
  · intro p c hp
    exact absurd hp (hclosed p)
  · intro p cp hp
    exact absurd hp (hclosed p)
  · intro x hx p cp hp
    exact absurd hp (hclosed p)
  · exact hclosed goal
  · intro p hp
    simp only [initNav, alKeys, List.map_cons, List.map_nil,
      List.mem_singleton] at hp
    exact Or.inl hp
  · show ([frm] : List Point).Nodup
    exact List.nodup_singleton frm

theorem nav_open_bound {Tile Ctx : Type} {m : Map Tile}
    {conv : Tile → Point → Ctx → Traversable} {ctx : Ctx}
    {frm goal : Point} {S : NavState}
    (inv : NavInv m conv ctx frm goal S) :
    ∀ (ds : List Direction) (v : Point), pathOK m conv ctx frm ds v →
      v ∉ closedPts S →
      ∃ z cz, z ∈ posList S.open_set ∧
        alGet S.cheapest_path_cost z = some cz ∧ cz ≤ ds.length := by
  intro ds
  induction ds using List.reverseRecOn with
  | nil =>
    intro v hpath hv
    have hfrm : frm = v := hpath
    subst hfrm
    have hk : frm ∈ alKeys S.cheapest_path_cost :=
      alGet_mem_keys _ _ _ inv.frmCheap
    have hpos : frm ∈ posList S.open_set := by
      by_contra hc
      exact hv ((mem_closed_iff S frm).mpr ⟨hk, hc⟩)
    exact ⟨frm, 0, hpos, inv.frmCheap, Nat.zero_le _⟩
  | append_singleton ds d ih =>
    intro v hpath hv
    obtain ⟨mid, hmid, hstep, hveq⟩ := (pathOK_snoc m conv ctx ds d frm v).mp hpath
    by_cases hc : mid ∈ closedPts S
    · obtain ⟨cmid, hcmid⟩ := mem_keys_alGet _ _ ((mem_closed_iff S mid).mp hc).1
      have hopt := inv.closedOpt mid cmid hc hcmid ds hmid
      obtain ⟨c2, hc2, hle2⟩ := inv.frontier mid cmid hc hcmid d (hveq ▸ hstep)
      have hk2 : mid + d ∈ alKeys S.cheapest_path_cost :=
        alGet_mem_keys _ _ _ hc2
      have hpos2 : mid + d ∈ posList S.open_set := by
        by_contra hnc
        rw [hveq] at hv
        exact hv ((mem_closed_iff S (mid + d)).mpr ⟨hk2, hnc⟩)
      refine ⟨mid + d, c2, hpos2, hc2, ?_⟩
      rw [List.length_append, List.length_singleton]
      omega
    · obtain ⟨z, cz, hz, hcz, hle⟩ := ih mid hmid hc
      refine ⟨z, cz, hz, hcz, ?_⟩
      rw [List.length_append, List.length_singleton]
      omega

theorem popOpt {Tile Ctx : Type} {m : Map Tile}
    {conv : Tile → Point → Ctx → Traversable} {ctx : Ctx}
    {frm goal : Point} {S : NavState} {n : AStarNode}
    {rest : List AStarNode}
    (inv : NavInv m conv ctx frm goal S)
    (hpop : popMax S.open_set = some (n, rest)) :
    ∀ ds, pathOK m conv ctx frm ds n.position → n.cost ≤ ds.length := by
  intro ds hds
  have hnotc : n.position ∉ closedPts S := by
    rw [mem_closed_iff]
    rintro ⟨-, hnp⟩
    exact hnp (List.mem_map.mpr ⟨n, popMax_mem hpop, rfl⟩)
  obtain ⟨z, cz, hz, hcz, hle⟩ := nav_open_bound inv ds n.position hds hnotc
  obtain ⟨x, hx, hxpos⟩ := List.mem_map.mp hz
  have hoc := inv.openCheap x hx
  rw [hxpos] at hoc
  rw [hoc] at hcz
  cases hcz
  have hmin := popMax_min_cost hpop x hx
  omega

theorem tileAt?_of_get? {Tile : Type} (m : Map Tile) (p : Point) (t : Tile)
    (h : m.get? p = some t) : m.tileAt? p = some t := by
  simp only [Map.get?] at h
  by_cases hc : 0 ≤ p.x ∧ 0 ≤ p.y
  · rw [if_pos hc] at h
    exact h
  · rw [if_neg hc] at h
    cases h

theorem mem_closed_pop {S : NavState} {n : AStarNode} {rest : List AStarNode}
    (hpop : popMax S.open_set = some (n, rest))
    (hkey : n.position ∈ alKeys S.cheapest_path_cost)
    (hnodup : (posList S.open_set).Nodup) (p : Point) :
    p ∈ closedPts { S with open_set := rest } ↔
      p ∈ closedPts S ∨ p = n.position := by
  have hperm : (posList S.open_set).Perm (n.position :: posList rest) :=
    (popMax_perm hpop).map AStarNode.position
  have hmem : ∀ q : Point, q ∈ posList S.open_set ↔
      q = n.position ∨ q ∈ posList rest := by
    intro q
    rw [hperm.mem_iff, List.mem_cons]
  have hnp : n.position ∉ posList rest :=
    (List.nodup_cons.mp (hperm.nodup_iff.mp hnodup)).1
  rw [mem_closed_iff, mem_closed_iff]
  show p ∈ alKeys S.cheapest_path_cost ∧ p ∉ posList rest ↔ _
  constructor
  · rintro ⟨hk, hnr⟩
    by_cases hp : p = n.position
    · exact Or.inr hp
    · refine Or.inl ⟨hk, ?_⟩
      intro hin
      rcases (hmem p).mp hin with h | h
      · exact hp h
      · exact hnr h
  · rintro (⟨hk, hno⟩ | rfl)
    · exact ⟨hk, fun hin => hno ((hmem p).mpr (Or.inr hin))⟩
    · exact ⟨hkey, hnp⟩

/-- Phase 1 of a `navigate_ctx` iteration: popping the best node from a
state satisfying the loop invariant yields the relaxation invariant with no
direction processed yet. -/
theorem midInv_of_pop {Tile Ctx : Type} {m : Map Tile}
    {conv : Tile → Point → Ctx → Traversable} {ctx : Ctx}
    {frm goal : Point} {S : NavState} {n : AStarNode}
    {rest : List AStarNode}
    (inv : NavInv m conv ctx frm goal S)
    (hpop : popMax S.open_set = some (n, rest))
    (hng : n.position ≠ goal) :
    MidInv m conv ctx frm goal n [] { S with open_set := rest } := by
  have hnmem := popMax_mem hpop
  have hnC := inv.openCheap n hnmem
  have hkey : n.position ∈ alKeys S.cheapest_path_cost :=
    alGet_mem_keys _ _ _ hnC
  have hcl := mem_closed_pop hpop hkey inv.nodupO
  have hperm : (posList S.open_set).Perm (n.position :: posList rest) :=
    (popMax_perm hpop).map AStarNode.position
  have hsub : ∀ x ∈ rest, x ∈ S.open_set := by
    intro x hx
    exact (popMax_perm hpop).mem_iff.mpr (List.mem_cons_of_mem _ hx)
  have hnopt : ∀ ds, pathOK m conv ctx frm ds n.position →
      n.cost ≤ ds.length := popOpt inv hpop
  refine ⟨?_, ?_, ?_, ?_, ?_, ?_, ?_, ?_, ?_, ?_, ?_, ?_, ?_, ?_, ?_, ?_,
    ?_, ?_⟩
  · exact (List.nodup_cons.mp (hperm.nodup_iff.mp inv.nodupO)).2
  · intro x hx
    exact inv.openCheap x (hsub x hx)
  · intro x hx
    exact inv.openGuess x (hsub x hx)
  · exact inv.frmCheap
  · intro x hx
    exact popMax_min_cost hpop x (hsub x hx)
  · intro x hx
    exact inv.spread x (hsub x hx) n hnmem
  · exact inv.edges
  · exact inv.keysCF
  · exact inv.reach
  · intro p c hp hc ds hds
    rcases (hcl p).mp hp with h | h
    · exact inv.closedOpt p c h hc ds hds
    · subst h
      rw [hnC] at hc
      cases hc
      exact hnopt ds hds
  · intro p cp hp hpn hcp d hd
    rcases (hcl p).mp hp with h | h
    · exact inv.frontier p cp h hcp d hd
    · exact absurd h hpn
  · intro d hd
    cases hd
  · exact hnC
  · exact (hcl n.position).mpr (Or.inr rfl)
  · intro p cp hp hcp
    rcases (hcl p).mp hp with h | h
    · exact inv.openLB n hnmem p cp h hcp
    · subst h
      rw [hnC] at hcp
      cases hcp
      exact Nat.le_refl _
  · intro hg
    rcases (hcl goal).mp hg with h | h
    · exact inv.goalOpen h
    · exact hng h.symm
  · exact inv.keysBound
  · exact inv.nodupC

/-- Pushing a fresh node does not change the settled set. -/
theorem mem_closed_push {T T1 : NavState} {nb : Point}
    (hfresh : nb ∉ alKeys T.cheapest_path_cost)
    (hK : ∀ r, r ∈ alKeys T1.cheapest_path_cost ↔
      r = nb ∨ r ∈ alKeys T.cheapest_path_cost)
    (hO : ∀ r, r ∈ posList T1.open_set ↔
      r = nb ∨ r ∈ posList T.open_set) :
    ∀ p, p ∈ closedPts T1 ↔ p ∈ closedPts T := by
  intro p
  rw [mem_closed_iff, mem_closed_iff]
  constructor
  · rintro ⟨hk, ho⟩
    have hpnb : p ≠ nb := fun h => ho ((hO p).mpr (Or.inl h))
    rcases (hK p).mp hk with h | h
    · exact absurd h hpnb
    · exact ⟨h, fun hin => ho ((hO p).mpr (Or.inr hin))⟩
  · rintro ⟨hk, ho⟩
    have hpnb : p ≠ nb := fun h => hfresh (h ▸ hk)
    refine ⟨(hK p).mpr (Or.inr hk), ?_⟩
    intro hin
    rcases (hO p).mp hin with h | h
    · exact hpnb h
    · exact ho h

/-- A direction whose neighbor is skipped (out of bounds, obstructed, or
already at least as cheap) extends the processed list without changing the
state. -/
theorem mid_extend_dir {Tile Ctx : Type} {m : Map Tile}
    {conv : Tile → Point → Ctx → Traversable} {ctx : Ctx}
    {frm goal : Point} {n : AStarNode} {done : List Direction}
    {T : NavState} {d : Direction}
    (hmid : MidInv m conv ctx frm goal n done T)
    (hcase : ¬ stepOK m conv ctx (n.position + d) ∨
      ∃ c, alGet T.cheapest_path_cost (n.position + d) = some c ∧
        c ≤ n.cost + 1) :
    MidInv m conv ctx frm goal n (done ++ [d]) T := by
  refine ⟨hmid.nodupO, hmid.openCheap, hmid.openGuess, hmid.frmCheap,
    hmid.lo, hmid.hi, hmid.edges, hmid.keysCF, hmid.reach, hmid.closedOpt,
    hmid.frontierOld, ?_, hmid.nCheap, hmid.nClosed, hmid.closedLB,
    hmid.goalOpen, hmid.keysBound, hmid.nodupC⟩
  intro d2 hd2 hstep
  rcases List.mem_append.mp hd2 with h | h
  · exact hmid.frontierN d2 h hstep
  · rw [List.mem_singleton] at h
    subst h
    rcases hcase with h | h
    · exact absurd hstep h
    · exact h

/-- Recording a fresh neighbor preserves the relaxation invariant and the
settled set. -/
theorem relax_push_mid {Tile Ctx : Type} {m : Map Tile}
    {conv : Tile → Point → Ctx → Traversable} {ctx : Ctx}
    {frm goal : Point} {n : AStarNode} {done : List Direction}
    {T : NavState} {d : Direction} {tile : Tile}
    (hmid : MidInv m conv ctx frm goal n done T)
    (hb : m.in_bounds (n.position + d) = true)
    (hget : m.get? (n.position + d) = some tile)
    (hfh : conv tile (n.position + d) ctx = Traversable.Free ∨
      conv tile (n.position + d) ctx = Traversable.Halt)
    (hfresh : alGet T.cheapest_path_cost (n.position + d) = none) :
    MidInv m conv ctx frm goal n (done ++ [d])
        (relaxedState goal (n.position + d) d n.position (n.cost + 1) T) ∧
      ∀ p, p ∈ closedPts (relaxedState goal (n.position + d) d n.position
          (n.cost + 1) T) ↔ p ∈ closedPts T := by
  have hfreshK : (n.position + d) ∉ alKeys T.cheapest_path_cost := by
    intro hk
    obtain ⟨b, hb2⟩ := mem_keys_alGet _ _ hk
    rw [hfresh] at hb2
    cases hb2
  have hstep : stepOK m conv ctx (n.position + d) :=
    ⟨hb, tile, tileAt?_of_get? m _ tile hget, hfh⟩
  have hnotopen : (n.position + d) ∉ posList T.open_set := by
    intro hop
    obtain ⟨x, hx, hxp⟩ := List.mem_map.mp hop
    have hoc := hmid.openCheap x hx
    rw [hxp, hfresh] at hoc
    cases hoc
  have hfrmK : frm ∈ alKeys T.cheapest_path_cost :=
    alGet_mem_keys _ _ _ hmid.frmCheap
  have hfrmne : frm ≠ n.position + d := fun h => hfreshK (h ▸ hfrmK)
  have hposK : n.position ∈ alKeys T.cheapest_path_cost :=
    alGet_mem_keys _ _ _ hmid.nCheap
  have hposne : n.position ≠ n.position + d := fun h => hfreshK (h ▸ hposK)
  have hO : ∀ r, r ∈ posList (relaxedState goal (n.position + d) d n.position
      (n.cost + 1) T).open_set ↔
      r = n.position + d ∨ r ∈ posList T.open_set := by
    intro r
    simp only [relaxedState, posList, List.map_append, List.map_cons,
      List.map_nil, List.mem_append, List.mem_singleton]
    tauto
  have hK : ∀ r, r ∈ alKeys (relaxedState goal (n.position + d) d n.position
      (n.cost + 1) T).cheapest_path_cost ↔
      r = n.position + d ∨ r ∈ alKeys T.cheapest_path_cost := by
    intro r
    simp only [relaxedState, alKeys]
    exact mem_keys_insert _ _ _ _
  have hclosed : ∀ p, p ∈ closedPts (relaxedState goal (n.position + d) d
      n.position (n.cost + 1) T) ↔ p ∈ closedPts T :=
    mem_closed_push hfreshK hK hO
  refine ⟨?_, hclosed⟩
  refine ⟨?_, ?_, ?_, ?_, ?_, ?_, ?_, ?_, ?_, ?_, ?_, ?_, ?_, ?_, ?_, ?_,
    ?_, ?_⟩
  · simp only [relaxedState, posList, List.map_append, List.map_cons,
      List.map_nil]
    rw [List.nodup_append]
    refine ⟨hmid.nodupO, List.nodup_singleton _, ?_⟩
    intro a ha ha2
    rw [List.mem_singleton] at ha2
    subst ha2
    exact hnotopen ha
  · simp only [relaxedState]
    intro x hx
    rcases List.mem_append.mp hx with h | h
    · have hxne : x.position ≠ n.position + d :=
        fun he => hnotopen (he ▸ List.mem_map.mpr ⟨x, h, rfl⟩)
      rw [alGet_insert_other _ _ _ _ hxne]
      exact hmid.openCheap x h
    · rw [List.mem_singleton] at h
      subst h
      exact alGet_insert_same _ _ _
  · simp only [relaxedState]
    intro x hx
    rcases List.mem_append.mp hx with h | h
    · have hxne : x.position ≠ n.position + d :=
        fun he => hnotopen (he ▸ List.mem_map.mpr ⟨x, h, rfl⟩)
      rw [alGet_insert_other _ _ _ _ hxne]
      exact hmid.openGuess x h
    · rw [List.mem_singleton] at h
      subst h
      exact alGet_insert_same _ _ _
  · simp only [relaxedState]
    rw [alGet_insert_other _ _ _ _ hfrmne]
    exact hmid.frmCheap
  · simp only [relaxedState]
    intro x hx
    rcases List.mem_append.mp hx with h | h
    · exact hmid.lo x h
    · rw [List.mem_singleton] at h
      subst h
      exact Nat.le_succ _
  · simp only [relaxedState]
    intro x hx
    rcases List.mem_append.mp hx with h | h
    · exact Nat.le_trans (hmid.hi x h) (Nat.le_refl _)
    · rw [List.mem_singleton] at h
      subst h
      exact Nat.le_refl _
  · simp only [relaxedState]
    intro p d2 q hpq
    by_cases hp : p = n.position + d
    · subst hp
      rw [alGet_insert_same] at hpq
      simp only [Option.some.injEq, Prod.mk.injEq] at hpq
      obtain ⟨h1, h2⟩ := hpq
      subst h1
      subst h2
      refine ⟨rfl, hstep, n.cost, ?_, ?_⟩
      · rw [alGet_insert_other _ _ _ _ hposne]
        exact hmid.nCheap
      · exact alGet_insert_same _ _ _
    · rw [alGet_insert_other _ _ _ _ hp] at hpq
      obtain ⟨he, hs, cq, hq1, hp1⟩ := hmid.edges p d2 q hpq
      have hqne : q ≠ n.position + d :=
        fun h => hfreshK (h ▸ alGet_mem_keys _ _ _ hq1)
      refine ⟨he, hs, cq, ?_, ?_⟩
      · rw [alGet_insert_other _ _ _ _ hqne]
        exact hq1
      · rw [alGet_insert_other _ _ _ _ hp]
        exact hp1
  · simp only [relaxedState]
    intro p
    have h1 := mem_keys_insert T.came_from (n.position + d) p (d, n.position)
    have h2 := mem_keys_insert T.cheapest_path_cost (n.position + d) p
      (n.cost + 1)
    constructor
    · intro h
      rcases h1.mp h with he | he
      · exact ⟨h2.mpr (Or.inl he), fun hc => hfrmne (hc ▸ he)⟩
      · obtain ⟨hk, hne⟩ := (hmid.keysCF p).mp he
        exact ⟨h2.mpr (Or.inr hk), hne⟩
    · rintro ⟨hk, hne⟩
      rcases h2.mp hk with he | he
      · exact h1.mpr (Or.inl he)
      · exact h1.mpr (Or.inr ((hmid.keysCF p).mpr ⟨he, hne⟩))
  · simp only [relaxedState]
    intro p c hc
    by_cases hp : p = n.position + d
    · subst hp
      rw [alGet_insert_same] at hc
      cases hc
      obtain ⟨ds, hds, hlen⟩ := hmid.reach n.position n.cost hmid.nCheap
      refine ⟨ds ++ [d], ?_, ?_⟩
      · exact (pathOK_snoc m conv ctx ds d frm _).mpr
          ⟨n.position, hds, hstep, rfl⟩
      · rw [List.length_append, List.length_singleton]
        omega
    · rw [alGet_insert_other _ _ _ _ hp] at hc
      exact hmid.reach p c hc
  · intro p c hp hc ds hds
    have hpT := (hclosed p).mp hp
    have hpk : p ∈ alKeys T.cheapest_path_cost :=
      ((mem_closed_iff T p).mp hpT).1
    have hpne : p ≠ n.position + d := fun h => hfreshK (h ▸ hpk)
    have hc2 : alGet T.cheapest_path_cost p = some c := by
      have hcc : alGet (alInsert T.cheapest_path_cost (n.position + d)
          (n.cost + 1)) p = some c := hc
      rw [alGet_insert_other _ _ _ _ hpne] at hcc
      exact hcc
    exact hmid.closedOpt p c hpT hc2 ds hds
  · intro p cp hp hpn hcp d2 hstep2
    have hpT := (hclosed p).mp hp
    have hpk : p ∈ alKeys T.cheapest_path_cost :=
      ((mem_closed_iff T p).mp hpT).1
    have hpne : p ≠ n.position + d := fun h => hfreshK (h ▸ hpk)
    have hcp2 : alGet T.cheapest_path_cost p = some cp := by
      have hcc : alGet (alInsert T.cheapest_path_cost (n.position + d)
          (n.cost + 1)) p = some cp := hcp
      rw [alGet_insert_other _ _ _ _ hpne] at hcc
      exact hcc
    obtain ⟨c2, hc2, hle⟩ := hmid.frontierOld p cp hpT hpn hcp2 d2 hstep2
    have hne2 : p + d2 ≠ n.position + d :=
      fun h => hfreshK (h ▸ alGet_mem_keys _ _ _ hc2)
    refine ⟨c2, ?_, hle⟩
    show alGet (alInsert T.cheapest_path_cost (n.position + d)
      (n.cost + 1)) (p + d2) = some c2
    rw [alGet_insert_other _ _ _ _ hne2]
    exact hc2
  · simp only [relaxedState]
    intro d2 hd2 hstep2
    rcases List.mem_append.mp hd2 with h | h
    · obtain ⟨c2, hc2, hle⟩ := hmid.frontierN d2 h hstep2
      have hne2 : n.position + d2 ≠ n.position + d :=
        fun h2 => hfreshK (h2 ▸ alGet_mem_keys _ _ _ hc2)
      refine ⟨c2, ?_, hle⟩
      rw [alGet_insert_other _ _ _ _ hne2]
      exact hc2
    · rw [List.mem_singleton] at h
      subst h
      exact ⟨n.cost + 1, alGet_insert_same _ _ _, Nat.le_refl _⟩
  · simp only [relaxedState]
    rw [alGet_insert_other _ _ _ _ hposne]
    exact hmid.nCheap
  · exact (hclosed n.position).mpr hmid.nClosed
  · intro p cp hp hcp
    have hpT := (hclosed p).mp hp
    have hpk : p ∈ alKeys T.cheapest_path_cost :=
      ((mem_closed_iff T p).mp hpT).1
    have hpne : p ≠ n.position + d := fun h => hfreshK (h ▸ hpk)
    have hcp2 : alGet T.cheapest_path_cost p = some cp := by
      have hcc : alGet (alInsert T.cheapest_path_cost (n.position + d)
          (n.cost + 1)) p = some cp := hcp
      rw [alGet_insert_other _ _ _ _ hpne] at hcc
      exact hcc
    exact hmid.closedLB p cp hpT hcp2
  · intro hg
    exact hmid.goalOpen ((hclosed goal).mp hg)
  · intro p hp
    rcases (hK p).mp hp with h | h
    · subst h
      exact Or.inr hb
    · exact hmid.keysBound p h
  · simp only [relaxedState]
    exact nodup_keys_insert _ _ _ hmid.nodupC

/-- The neighbor-relaxation loop preserves the relaxation invariant,
extending the processed directions and leaving the settled set unchanged. -/
theorem relax_preserves {Tile Ctx : Type} {m : Map Tile}
    {conv : Tile → Point → Ctx → Traversable} {ctx : Ctx}
    {frm goal : Point} {n : AStarNode} :
    ∀ (dirs done : List Direction) (T T1 : NavState),
      MidInv m conv ctx frm goal n done T →
      relaxNeighbors m conv ctx goal n.cost n.position dirs T = some T1 →
      MidInv m conv ctx frm goal n (done ++ dirs) T1 ∧
        ∀ p, p ∈ closedPts T1 ↔ p ∈ closedPts T := by
  intro dirs
  induction dirs with
  | nil =>
    intro done T T1 hmid hrel
    simp only [relaxNeighbors, Option.some.injEq] at hrel
    subst hrel
    rw [List.append_nil]
    exact ⟨hmid, fun p => Iff.rfl⟩
  | cons d dirs ih =>
    intro done T T1 hmid hrel
    have hsplit : done ++ d :: dirs = (done ++ [d]) ++ dirs := by
      simp
    rw [hsplit]
    simp only [relaxNeighbors] at hrel
    by_cases hb : m.in_bounds (n.position + d) = true
    · rw [if_pos hb] at hrel
      cases hget : m.get? (n.position + d) with
      | none =>
        rw [hget] at hrel
        cases hrel
      | some tile =>
        rw [hget] at hrel
        dsimp only at hrel
        cases hcv : conv tile (n.position + d) ctx with
        | Obstructed =>
          rw [hcv] at hrel
          dsimp only at hrel
          have hnos : ¬ stepOK m conv ctx (n.position + d) := by
            rintro ⟨-, t, ht, hfh⟩
            have htt := tileAt?_of_get? m _ tile hget
            rw [htt] at ht
            cases ht
            rcases hfh with h | h <;> rw [hcv] at h <;> cases h
          exact ih (done ++ [d]) T T1 (mid_extend_dir hmid (Or.inl hnos)) hrel
        | Free =>
          rw [hcv] at hrel
          dsimp only at hrel
          by_cases hbet : (match alGet T.cheapest_path_cost (n.position + d)
              with
            | none => true
            | some c => decide (n.cost + 1 < c)) = true
          · rw [if_pos hbet] at hrel
            have hfresh : alGet T.cheapest_path_cost (n.position + d) =
                none := by
              cases hg : alGet T.cheapest_path_cost (n.position + d) with
              | none => rfl
              | some c =>
                exfalso
                rw [hg] at hbet
                have hlt : n.cost + 1 < c := of_decide_eq_true hbet
                have hkm : (n.position + d) ∈ alKeys T.cheapest_path_cost :=
                  alGet_mem_keys _ _ _ hg
                by_cases hop : (n.position + d) ∈ posList T.open_set
                · obtain ⟨x, hx, hxp⟩ := List.mem_map.mp hop
                  have hoc := hmid.openCheap x hx
                  rw [hxp, hg] at hoc
                  simp only [Option.some.injEq] at hoc
                  have := hmid.hi x hx
                  omega
                · have hclosedm := (mem_closed_iff T _).mpr ⟨hkm, hop⟩
                  have := hmid.closedLB _ c hclosedm hg
                  omega
            have hnotopen : (n.position + d) ∉ posList T.open_set := by
              intro hop
              obtain ⟨x, hx, hxp⟩ := List.mem_map.mp hop
              have hoc := hmid.openCheap x hx
              rw [hxp, hfresh] at hoc
              cases hoc
            have hany : ¬ (T.open_set.any
                (fun e => decide (e.position = n.position + d)) = true) := by
              intro ha
              obtain ⟨x, hx, hxe⟩ := List.any_eq_true.mp ha
              exact hnotopen
                (List.mem_map.mpr ⟨x, hx, of_decide_eq_true hxe⟩)
            rw [if_neg hany] at hrel
            have hrel2 : relaxNeighbors m conv ctx goal n.cost n.position dirs
                (relaxedState goal (n.position + d) d n.position (n.cost + 1)
                  T) = some T1 := hrel
            obtain ⟨hmid2, hcl2⟩ :=
              relax_push_mid hmid hb hget (Or.inl hcv) hfresh
            obtain ⟨hfin, hcl1⟩ := ih (done ++ [d]) _ T1 hmid2 hrel2
            exact ⟨hfin, fun p => (hcl1 p).trans (hcl2 p)⟩
          · rw [if_neg hbet] at hrel
            have hc : ∃ c, alGet T.cheapest_path_cost (n.position + d) =
                some c ∧ c ≤ n.cost + 1 := by
              cases hg : alGet T.cheapest_path_cost (n.position + d) with
              | none =>
                rw [hg] at hbet
                exact absurd rfl hbet
              | some c =>
                rw [hg] at hbet
                refine ⟨c, rfl, ?_⟩
                have hnlt : ¬ (n.cost + 1 < c) :=
                  fun hlt => hbet (decide_eq_true hlt)
                omega
            exact ih (done ++ [d]) T T1 (mid_extend_dir hmid (Or.inr hc)) hrel
        | Halt =>
          rw [hcv] at hrel
          dsimp only at hrel
          by_cases hbet : (match alGet T.cheapest_path_cost (n.position + d)
              with
            | none => true
            | some c => decide (n.cost + 1 < c)) = true
          · rw [if_pos hbet] at hrel
            have hfresh : alGet T.cheapest_path_cost (n.position + d) =
                none := by
              cases hg : alGet T.cheapest_path_cost (n.position + d) with
              | none => rfl
              | some c =>
                exfalso
                rw [hg] at hbet
                have hlt : n.cost + 1 < c := of_decide_eq_true hbet
                have hkm : (n.position + d) ∈ alKeys T.cheapest_path_cost :=
                  alGet_mem_keys _ _ _ hg
                by_cases hop : (n.position + d) ∈ posList T.open_set
                · obtain ⟨x, hx, hxp⟩ := List.mem_map.mp hop
                  have hoc := hmid.openCheap x hx
                  rw [hxp, hg] at hoc
                  simp only [Option.some.injEq] at hoc
                  have := hmid.hi x hx
                  omega
                · have hclosedm := (mem_closed_iff T _).mpr ⟨hkm, hop⟩
                  have := hmid.closedLB _ c hclosedm hg
                  omega
            have hnotopen : (n.position + d) ∉ posList T.open_set := by
              intro hop
              obtain ⟨x, hx, hxp⟩ := List.mem_map.mp hop
              have hoc := hmid.openCheap x hx
              rw [hxp, hfresh] at hoc
              cases hoc
            have hany : ¬ (T.open_set.any
                (fun e => decide (e.position = n.position + d)) = true) := by
              intro ha
              obtain ⟨x, hx, hxe⟩ := List.any_eq_true.mp ha
              exact hnotopen
                (List.mem_map.mpr ⟨x, hx, of_decide_eq_true hxe⟩)
            rw [if_neg hany] at hrel
            have hrel2 : relaxNeighbors m conv ctx goal n.cost n.position dirs
                (relaxedState goal (n.position + d) d n.position (n.cost + 1)
                  T) = some T1 := hrel
            obtain ⟨hmid2, hcl2⟩ :=
              relax_push_mid hmid hb hget (Or.inr hcv) hfresh
            obtain ⟨hfin, hcl1⟩ := ih (done ++ [d]) _ T1 hmid2 hrel2
            exact ⟨hfin, fun p => (hcl1 p).trans (hcl2 p)⟩
          · rw [if_neg hbet] at hrel
            have hc : ∃ c, alGet T.cheapest_path_cost (n.position + d) =
                some c ∧ c ≤ n.cost + 1 := by
              cases hg : alGet T.cheapest_path_cost (n.position + d) with
              | none =>
                rw [hg] at hbet
                exact absurd rfl hbet
              | some c =>
                rw [hg] at hbet
                refine ⟨c, rfl, ?_⟩
                have hnlt : ¬ (n.cost + 1 < c) :=
                  fun hlt => hbet (decide_eq_true hlt)
                omega
            exact ih (done ++ [d]) T T1 (mid_extend_dir hmid (Or.inr hc)) hrel
    · rw [if_neg hb] at hrel
      have hnos : ¬ stepOK m conv ctx (n.position + d) := by
        rintro ⟨hbb, -⟩
        exact hb hbb
      exact ih (done ++ [d]) T T1 (mid_extend_dir hmid (Or.inl hnos)) hrel

theorem dir_mem_list (d : Direction) : d ∈ Direction.list := by
  cases d <;> simp [Direction.list]

/-- After all four directions are relaxed, the relaxation invariant yields
the loop invariant back. -/
theorem navInv_of_mid {Tile Ctx : Type} {m : Map Tile}
    {conv : Tile → Point → Ctx → Traversable} {ctx : Ctx}
    {frm goal : Point} {n : AStarNode} {T : NavState}
    (hmid : MidInv m conv ctx frm goal n Direction.list T) :
    NavInv m conv ctx frm goal T := by
  refine ⟨hmid.nodupO, hmid.openCheap, hmid.openGuess, hmid.frmCheap, ?_,
    hmid.edges, hmid.keysCF, hmid.reach, hmid.closedOpt, ?_, ?_,
    hmid.goalOpen, hmid.keysBound, hmid.nodupC⟩
  · intro x hx y hy
    have h1 := hmid.hi x hx
    have h2 := hmid.lo y hy
    omega
  · intro p cp hp hcp d hd
    by_cases hpn : p = n.position
    · subst hpn
      have hcn : cp = n.cost := by
        have hh := hmid.nCheap
        rw [hcp] at hh
        simp only [Option.some.injEq] at hh
        omega
      subst hcn
      exact hmid.frontierN d (dir_mem_list d) hd
    · exact hmid.frontierOld p cp hp hpn hcp d hd
  · intro x hx p cp hp hcp
    exact Nat.le_trans (hmid.closedLB p cp hp hcp) (hmid.lo x hx)

/-- A continuing `navigate_ctx` iteration preserves the loop invariant and
settles exactly one new position. -/
theorem navStep_cont {Tile Ctx : Type} {m : Map Tile}
    {conv : Tile → Point → Ctx → Traversable} {ctx : Ctx}
    {frm goal : Point} {S S1 : NavState}
    (inv : NavInv m conv ctx frm goal S)
    (hstep : navStep m conv ctx goal S = .cont S1) :
    NavInv m conv ctx frm goal S1 ∧
      ∃ q, q ∉ closedPts S ∧
        ∀ p, p ∈ closedPts S1 ↔ p ∈ closedPts S ∨ p = q := by
  simp only [navStep] at hstep
  cases hpop : popMax S.open_set with
  | none =>
    rw [hpop] at hstep
    cases hstep
  | some nr =>
    obtain ⟨n, rest⟩ := nr
    rw [hpop] at hstep
    dsimp only at hstep
    by_cases hg : n.position = goal
    · rw [if_pos hg] at hstep
      cases hstep
    · rw [if_neg hg] at hstep
      cases hrel : relaxNeighbors m conv ctx goal n.cost n.position
          Direction.list { S with open_set := rest } with
      | none =>
        rw [hrel] at hstep
        cases hstep
      | some T1 =>
        rw [hrel] at hstep
        dsimp only at hstep
        cases hstep
        have hmid0 := midInv_of_pop inv hpop hg
        obtain ⟨hmid, hcl⟩ :=
          relax_preserves Direction.list [] _ S1 hmid0 hrel
        rw [List.nil_append] at hmid
        refine ⟨navInv_of_mid hmid, n.position, ?_, ?_⟩
        · rw [mem_closed_iff]
          rintro ⟨-, hnp⟩
          exact hnp (List.mem_map.mpr ⟨n, popMax_mem hpop, rfl⟩)
        · intro p
          rw [hcl p]
          exact mem_closed_pop hpop
            (alGet_mem_keys _ _ _ (inv.openCheap n (popMax_mem hpop)))
            inv.nodupO p

/-- Every state the `navigate_ctx` loop reaches satisfies the loop
invariant. -/
theorem reach_inv {Tile Ctx : Type} {m : Map Tile}
    {conv : Tile → Point → Ctx → Traversable} {ctx : Ctx}
    {frm goal : Point} {S : NavState}
    (h : NavReach m conv ctx frm goal S) :
    NavInv m conv ctx frm goal S := by
  induction h with
  | init => exact navInv_init m conv ctx frm goal (Or.inl rfl)
  | step h1 h2 ih => exact (navStep_cont ih h2).1

/-- The reconstruction loop of `navigate_ctx` returns, reversed, a valid
path from the start whose length is the recorded g-score of its end
point. -/
theorem recon_spec {Tile Ctx : Type} {m : Map Tile}
    {conv : Tile → Point → Ctx → Traversable} {ctx : Ctx}
    {frm : Point} {S : NavState}
    (hfrm : alGet S.cheapest_path_cost frm = some 0)
    (hedges : ∀ p d q, alGet S.came_from p = some (d, q) →
      p = q + d ∧ stepOK m conv ctx p ∧
        ∃ cq, alGet S.cheapest_path_cost q = some cq ∧
          alGet S.cheapest_path_cost p = some (cq + 1))
    (hkeys : ∀ p, p ∈ alKeys S.came_from ↔
      p ∈ alKeys S.cheapest_path_cost ∧ p ≠ frm) :
    ∀ (c : Nat) (fuel : Nat) (F : List (Point × (Direction × Point)))
      (p : Point),
      F.length < fuel →
      (∀ r k, alGet S.cheapest_path_cost r = some k → k ≤ c →
        alGet F r = alGet S.came_from r) →
      alGet S.cheapest_path_cost p = some c →
      pathOK m conv ctx frm (reconstructAux fuel F p).reverse p ∧
        (reconstructAux fuel F p).length = c := by
  intro c
  induction c with
  | zero =>
    intro fuel F p hfuel hagree hp
    have hpf : p = frm := by
      by_contra hne
      have hkm : p ∈ alKeys S.cheapest_path_cost := alGet_mem_keys _ _ _ hp
      have hcf : p ∈ alKeys S.came_from := (hkeys p).mpr ⟨hkm, hne⟩
      obtain ⟨dq, hdq⟩ := mem_keys_alGet _ _ hcf
      obtain ⟨-, -, cq, -, hp1⟩ := hedges p dq.1 dq.2 (by rw [hdq])
      rw [hp] at hp1
      simp only [Option.some.injEq] at hp1
      omega
    subst hpf
    have hnone : alGet S.came_from p = none := by
      apply alGet_none_of_not_mem
      intro hm
      exact ((hkeys p).mp hm).2 rfl
    have hF : alGet F p = none :=
      (hagree p 0 hp (Nat.le_refl 0)).trans hnone
    cases fuel with
    | zero => omega
    | succ f =>
      simp only [reconstructAux, hF, List.reverse_nil, List.length_nil]
      exact ⟨rfl, trivial⟩
  | succ c ihc =>
    intro fuel F p hfuel hagree hp
    have hne : p ≠ frm := by
      intro he
      subst he
      rw [hfrm] at hp
      simp only [Option.some.injEq] at hp
      omega
    have hkm : p ∈ alKeys S.cheapest_path_cost := alGet_mem_keys _ _ _ hp
    obtain ⟨dq, hdq⟩ := mem_keys_alGet _ _ ((hkeys p).mpr ⟨hkm, hne⟩)
    obtain ⟨heq, hstep, cq, hq, hp1⟩ := hedges p dq.1 dq.2 (by rw [hdq])
    have hcq : cq = c := by
      rw [hp] at hp1
      simp only [Option.some.injEq] at hp1
      omega
    subst hcq
    have hFp : alGet F p = some (dq.1, dq.2) :=
      (hagree p (cq + 1) hp (Nat.le_refl _)).trans hdq
    cases fuel with
    | zero => omega
    | succ f =>
      have hrem : (alRemove F p).length < f := by
        have h1 : (alRemove F p).length < F.length :=
          alRemove_length_lt F p _ hFp
        omega
      have hagree2 : ∀ r k, alGet S.cheapest_path_cost r = some k → k ≤ cq →
          alGet (alRemove F p) r = alGet S.came_from r := by
        intro r k hr hk
        have hrp : r ≠ p := by
          intro he
          subst he
          rw [hp] at hr
          simp only [Option.some.injEq] at hr
          omega
        rw [alGet_remove_other F p r hrp]
        exact hagree r k hr (by omega)
      obtain ⟨ih1, ih2⟩ := ihc f (alRemove F p) dq.2 hrem hagree2 hq
      simp only [reconstructAux, hFp]
      constructor
      · rw [List.reverse_cons]
        exact (pathOK_snoc m conv ctx _ dq.1 frm p).mpr
          ⟨dq.2, ih1, heq ▸ hstep, heq⟩
      · rw [List.length_cons, ih2]

/-- A fuelled run of the `navigate_ctx` loop from an invariant state that
returns a path returns a valid minimal path to the goal. -/
theorem navRun_sound {Tile Ctx : Type} {m : Map Tile}
    {conv : Tile → Point → Ctx → Traversable} {ctx : Ctx}
    {frm goal : Point} :
    ∀ (fuel : Nat) (S : NavState) (l : List Direction),
      NavInv m conv ctx frm goal S →
      navRun m conv ctx goal fuel S = .ret (some l) →
      pathOK m conv ctx frm l goal ∧
        ∀ ds, pathOK m conv ctx frm ds goal → l.length ≤ ds.length := by
  intro fuel
  induction fuel with
  | zero =>
    intro S l inv h
    cases h
  | succ f ih =>
    intro S l inv h
    simp only [navRun] at h
    cases hstep : navStep m conv ctx goal S with
    | panicked =>
      rw [hstep] at h
      cases h
    | cont S1 =>
      rw [hstep] at h
      exact ih S1 l (navStep_cont inv hstep).1 h
    | ret r =>
      rw [hstep] at h
      dsimp only at h
      cases h
      simp only [navStep] at hstep
      cases hpop : popMax S.open_set with
      | none =>
        rw [hpop] at hstep
        cases hstep
      | some nr =>
        obtain ⟨n, rest⟩ := nr
        rw [hpop] at hstep
        dsimp only at hstep
        by_cases hg : n.position = goal
        · rw [if_pos hg] at hstep
          have hl : l = (reconstruct S.came_from goal).reverse := by
            cases hstep
            rfl
          subst hl
          have hgc : alGet S.cheapest_path_cost goal = some n.cost := by
            have hh := inv.openCheap n (popMax_mem hpop)
            rw [hg] at hh
            exact hh
          obtain ⟨hpath, hlen⟩ := recon_spec inv.frmCheap inv.edges
            inv.keysCF n.cost (S.came_from.length + 1) S.came_from goal
            (Nat.lt_succ_self _) (fun _ _ _ _ => rfl) hgc
          refine ⟨hpath, ?_⟩
          intro ds hds
          have hopt := popOpt inv hpop ds (hg.symm ▸ hds)
          rw [List.length_reverse]
          have hle : (reconstruct S.came_from goal).length = n.cost := hlen
          omega
        · rw [if_neg hg] at hstep
          cases hrel : relaxNeighbors m conv ctx goal n.cost n.position
              Direction.list { S with open_set := rest } with
          | none =>
            rw [hrel] at hstep
            cases hstep
          | some T1 =>
            rw [hrel] at hstep
            cases hstep

/-- A fuelled run of the `navigate_ctx` loop from an invariant state that
returns `None` leaves no valid path to the goal. -/
theorem navRun_complete {Tile Ctx : Type} {m : Map Tile}
    {conv : Tile → Point → Ctx → Traversable} {ctx : Ctx}
    {frm goal : Point} :
    ∀ (fuel : Nat) (S : NavState),
      NavInv m conv ctx frm goal S →
      navRun m conv ctx goal fuel S = .ret none →
      ∀ ds, ¬ pathOK m conv ctx frm ds goal := by
  intro fuel
  induction fuel with
  | zero =>
    intro S inv h
    cases h
  | succ f ih =>
    intro S inv h
    simp only [navRun] at h
    cases hstep : navStep m conv ctx goal S with
    | panicked =>
      rw [hstep] at h
      cases h
    | cont S1 =>
      rw [hstep] at h
      exact ih S1 (navStep_cont inv hstep).1 h
    | ret r =>
      rw [hstep] at h
      dsimp only at h
      cases h
      simp only [navStep] at hstep
      cases hpop : popMax S.open_set with
      | some nr =>
        obtain ⟨n, rest⟩ := nr
        rw [hpop] at hstep
        dsimp only at hstep
        by_cases hg : n.position = goal
        · rw [if_pos hg] at hstep
          cases hstep
        · rw [if_neg hg] at hstep
          cases hrel : relaxNeighbors m conv ctx goal n.cost n.position
              Direction.list { S with open_set := rest } with
          | none =>
            rw [hrel] at hstep
            cases hstep
          | some T1 =>
            rw [hrel] at hstep
            cases hstep
      | none =>
        intro ds hds
        have hemp : S.open_set = [] := popMax_none hpop
        obtain ⟨z, cz, hz, -, -⟩ :=
          nav_open_bound inv ds goal hds inv.goalOpen
        rw [hemp] at hz
        simp only [posList, List.map_nil] at hz
        cases hz

/-- Every in-bounds point is the image of a linear index below
`width * height`. -/
theorem index2point_of_in_bounds {Tile : Type} (m : Map Tile) (p : Point)
    (hb : m.in_bounds p = true) :
    ∃ i, i < m.width * m.height ∧ m.index2point i = p := by
  obtain ⟨h1, h2, h3, h4⟩ := (in_bounds_iff m p).mp hb
  refine ⟨(p.x - m.offset.x).toNat + (p.y - m.offset.y).toNat * m.width,
    idx_lt_of _ _ _ _ (by omega) (by omega), ?_⟩
  obtain ⟨hmod, hdiv⟩ := decompose_mod_div (p.x - m.offset.x).toNat
    (p.y - m.offset.y).toNat m.width (by omega)
  simp only [Map.index2point, hmod, hdiv]
  show Point.mk (((p.x - m.offset.x).toNat : Int) + m.offset.x)
    (((p.y - m.offset.y).toNat : Int) + m.offset.y) = p
  have e1 : (((p.x - m.offset.x).toNat : Nat) : Int) = p.x - m.offset.x :=
    Int.toNat_of_nonneg (by omega)
  have e2 : (((p.y - m.offset.y).toNat : Nat) : Int) = p.y - m.offset.y :=
    Int.toNat_of_nonneg (by omega)
  rw [e1, e2]
  show Point.mk (p.x - m.offset.x + m.offset.x)
    (p.y - m.offset.y + m.offset.y) = p
  have hx2 : p.x - m.offset.x + m.offset.x = p.x := by omega
  have hy2 : p.y - m.offset.y + m.offset.y = p.y := by omega
  rw [hx2, hy2]

/-- The settled set of an invariant state has at most
`width * height + 1` distinct positions. -/
theorem closed_bound {Tile Ctx : Type} {m : Map Tile}
    {conv : Tile → Point → Ctx → Traversable} {ctx : Ctx}
    {frm goal : Point} {S : NavState}
    (inv : NavInv m conv ctx frm goal S) :
    (closedPts S).toFinset.card ≤ m.width * m.height + 1 := by
  have hsub : (closedPts S).toFinset ⊆ (frm :: boundPts m).toFinset := by
    intro p hp
    rw [List.mem_toFinset] at hp ⊢
    have hpk : p ∈ alKeys S.cheapest_path_cost :=
      ((mem_closed_iff S p).mp hp).1
    rcases inv.keysBound p hpk with h | h
    · exact h ▸ List.mem_cons_self _ _
    · refine List.mem_cons_of_mem _ ?_
      obtain ⟨i, hlt, hip⟩ := index2point_of_in_bounds m p h
      exact List.mem_map.mpr ⟨i, List.mem_range.mpr hlt, hip⟩
  calc (closedPts S).toFinset.card
      ≤ (frm :: boundPts m).toFinset.card := Finset.card_le_card hsub
    _ ≤ (frm :: boundPts m).length := List.toFinset_card_le _
    _ = m.width * m.height + 1 := by
        simp [boundPts]

/-- With fuel exceeding the number of still-unsettled positions, the
`navigate_ctx` loop always reaches a return. -/
theorem navRun_terminates {Tile Ctx : Type} {m : Map Tile}
    {conv : Tile → Point → Ctx → Traversable} {ctx : Ctx}
    {frm goal : Point} :
    ∀ (fuel : Nat) (S : NavState),
      NavInv m conv ctx frm goal S →
      m.width * m.height + 2 ≤ (closedPts S).toFinset.card + fuel →
      navRun m conv ctx goal fuel S ≠ .out := by
  intro fuel
  induction fuel with
  | zero =>
    intro S inv hfuel
    have := closed_bound inv
    omega
  | succ f ih =>
    intro S inv hfuel
    simp only [navRun]
    cases hstep : navStep m conv ctx goal S with
    | panicked =>
      intro h
      cases h
    | ret r =>
      intro h
      cases h
    | cont S1 =>
      obtain ⟨inv1, q, hq, hcl⟩ := navStep_cont inv hstep
      apply ih S1 inv1
      have hins : (closedPts S1).toFinset = insert q (closedPts S).toFinset := by
        apply Finset.ext
        intro a
        rw [Finset.mem_insert, List.mem_toFinset, List.mem_toFinset, hcl a]
        tauto
      rw [hins, Finset.card_insert_of_not_mem (by
        rw [List.mem_toFinset]
        exact hq)]
      omega

/-- The initial `navigate_ctx` state has no settled position. -/
theorem closed_init (frm goal : Point) :
    closedPts (initNav frm goal) = [] := by
  simp [closedPts, initNav, alKeys, posList]

/-- C1 (amended): for every map whose offset has nonnegative coordinates
and whose tile buffer has the invariant length, and all in-bounds points
`from` and `to`, `navigate_ctx` returns `Some(path)` if and only if a step
sequence from `from` to `to` exists in which every step enters an
in-bounds tile classified `Free` or `Halt`; and any returned path is such
a sequence of minimal length. -/
theorem c1_navigate_correct {Tile Ctx : Type} (m : Map Tile)
    (conv : Tile → Point → Ctx → Traversable) (ctx : Ctx)
    (frm goal : Point)
    (hinv : m.tiles.length = m.width * m.height)
    (hx : 0 ≤ m.offset.x) (hy : 0 ≤ m.offset.y)
    (hfrm : m.in_bounds frm = true) (hto : m.in_bounds goal = true) :
    ((∃ ds, navigate_ctx m conv ctx frm goal = .ret (some ds)) ↔
      ∃ ds, pathOK m conv ctx frm ds goal) ∧
    ∀ ds, navigate_ctx m conv ctx frm goal = .ret (some ds) →
      pathOK m conv ctx frm ds goal ∧
        ∀ ds2, pathOK m conv ctx frm ds2 goal → ds.length ≤ ds2.length := by
  have hinv0 : NavInv m conv ctx frm goal (initNav frm goal) :=
    navInv_init m conv ctx frm goal (Or.inl rfl)
  constructor
  · constructor
    · rintro ⟨ds, hds⟩
      obtain ⟨hp, -⟩ := navRun_sound (navFuel m) (initNav frm goal) ds
        hinv0 hds
      exact ⟨ds, hp⟩
    · rintro ⟨ds, hds⟩
      cases hout : navigate_ctx m conv ctx frm goal with
      | out =>
        exfalso
        have hcard : (closedPts (initNav frm goal)).toFinset.card = 0 := by
          rw [closed_init]
          rfl
        refine navRun_terminates (navFuel m) (initNav frm goal) hinv0 ?_ hout
        rw [hcard]
        show m.width * m.height + 2 ≤ 0 + (m.width * m.height + 3)
        omega
      | panicked =>
        exact absurd hout (nav_no_panic m conv ctx goal hinv hx hy _ _)
      | ret r =>
        cases r with
        | some l => exact ⟨l, rfl⟩
        | none =>
          exact absurd hds
            (navRun_complete (navFuel m) (initNav frm goal) hinv0 hout ds)
  · intro ds hds
    exact navRun_sound (navFuel m) (initNav frm goal) ds hinv0 hds

/-- C1 counterexample: on a 2-by-1 map with offset `(-1, 0)` every tile is
free, both `(0, 0)` and `(-1, 0)` are in bounds and a one-step path from
the former to the latter exists, yet `navigate_ctx` panics on the
positive-quadrant indexing assertion instead of returning it: the claim
fails for maps with a negative offset. -/
theorem c1_negative_offset_cex :
    mapNeg2.in_bounds ⟨0, 0⟩ = true ∧
    mapNeg2.in_bounds ⟨-1, 0⟩ = true ∧
    pathOK mapNeg2 convFree () ⟨0, 0⟩ [Direction.Left] ⟨-1, 0⟩ ∧
    navigate_ctx mapNeg2 convFree () ⟨0, 0⟩ ⟨-1, 0⟩ = .panicked := by
  refine ⟨by decide, by decide, ?_, by decide⟩
  exact ⟨⟨by decide, (), rfl, Or.inl rfl⟩, rfl⟩

/-- C1 witness: the amended statement instantiated on the obstruction-free
4-by-3 grid with start `(0, 0)` and goal `(3, 2)`. -/
theorem c1_navigate_correct_witness :
    (map4x3.tiles.length = map4x3.width * map4x3.height ∧
      0 ≤ map4x3.offset.x ∧ 0 ≤ map4x3.offset.y ∧
      map4x3.in_bounds ⟨0, 0⟩ = true ∧ map4x3.in_bounds ⟨3, 2⟩ = true) ∧
    (((∃ ds, navigate_ctx map4x3 convFree () ⟨0, 0⟩ ⟨3, 2⟩ =
          .ret (some ds)) ↔
        ∃ ds, pathOK map4x3 convFree () ⟨0, 0⟩ ds ⟨3, 2⟩) ∧
      ∀ ds, navigate_ctx map4x3 convFree () ⟨0, 0⟩ ⟨3, 2⟩ =
          .ret (some ds) →
        pathOK map4x3 convFree () ⟨0, 0⟩ ds ⟨3, 2⟩ ∧
          ∀ ds2, pathOK map4x3 convFree () ⟨0, 0⟩ ds2 ⟨3, 2⟩ →
            ds.length ≤ ds2.length) :=
  ⟨⟨rfl, by decide, by decide, by decide, by decide⟩,
    c1_navigate_correct map4x3 convFree () ⟨0, 0⟩ ⟨3, 2⟩ rfl (by decide)
      (by decide) (by decide) (by decide)⟩

/-- C3 (amended): in `navigate_ctx` the open set is a max-heap under the
`AStarNode` order, which compares costs reversed so that pops take a node
of minimum priority, with ties broken by the `Point` total order; the
priority of every node is its g-cost (the recorded `cheapest_path_cost`),
not `f = g + h`: the f-score is recorded in `total_cost_guess` but never
drives the ordering. Pops take a minimum-g node (the one of greatest
position among equal g), and the g-costs of successive pops never
decrease. -/
theorem c3_priority_is_g {Tile Ctx : Type} (m : Map Tile)
    (conv : Tile → Point → Ctx → Traversable) (ctx : Ctx)
    (frm goal : Point) (S : NavState)
    (hreach : NavReach m conv ctx frm goal S) :
    (∀ n ∈ S.open_set,
      alGet S.cheapest_path_cost n.position = some n.cost ∧
      alGet S.total_cost_guess n.position =
        some (n.cost + Point.manhattan (goal - n.position))) ∧
    (∀ n rest, popMax S.open_set = some (n, rest) →
      (∀ z ∈ S.open_set, n.cost ≤ z.cost) ∧
      (∀ z ∈ S.open_set, z.cost = n.cost →
        Point.cmp z.position n.position ≠ .gt)) ∧
    (∀ S1 n rest, navStep m conv ctx goal S = .cont S1 →
      popMax S.open_set = some (n, rest) →
      ∀ z ∈ S1.open_set, n.cost ≤ z.cost) := by
  have inv := reach_inv hreach
  refine ⟨?_, ?_, ?_⟩
  · intro n hn
    exact ⟨inv.openCheap n hn, inv.openGuess n hn⟩
  · intro n rest hpop
    exact ⟨popMax_min_cost hpop, popMax_tie hpop⟩
  · intro S1 n rest hstep hpop
    simp only [navStep, hpop] at hstep
    by_cases hg : n.position = goal
    · rw [if_pos hg] at hstep
      cases hstep
    · rw [if_neg hg] at hstep
      cases hrel : relaxNeighbors m conv ctx goal n.cost n.position
          Direction.list { S with open_set := rest } with
      | none =>
        rw [hrel] at hstep
        cases hstep
      | some T1 =>
        rw [hrel] at hstep
        dsimp only at hstep
        cases hstep
        have hmid0 := midInv_of_pop inv hpop hg
        obtain ⟨hmid, -⟩ :=
          relax_preserves Direction.list [] _ S1 hmid0 hrel
        exact hmid.lo

/-- C3 witness: the amended statement instantiated at the initial state of
the search from `(0, 0)` to `(3, 2)` on the 4-by-3 grid. -/
theorem c3_priority_is_g_witness :
    NavReach map4x3 convFree () ⟨0, 0⟩ ⟨3, 2⟩ (initNav ⟨0, 0⟩ ⟨3, 2⟩) ∧
    ((∀ n ∈ (initNav (⟨0, 0⟩ : Point) (⟨3, 2⟩ : Point)).open_set,
      alGet (initNav (⟨0, 0⟩ : Point) (⟨3, 2⟩ : Point)).cheapest_path_cost
          n.position = some n.cost ∧
      alGet (initNav (⟨0, 0⟩ : Point) (⟨3, 2⟩ : Point)).total_cost_guess
          n.position =
        some (n.cost + Point.manhattan ((⟨3, 2⟩ : Point) - n.position))) ∧
    (∀ n rest, popMax (initNav (⟨0, 0⟩ : Point)
        (⟨3, 2⟩ : Point)).open_set = some (n, rest) →
      (∀ z ∈ (initNav (⟨0, 0⟩ : Point) (⟨3, 2⟩ : Point)).open_set,
        n.cost ≤ z.cost) ∧
      (∀ z ∈ (initNav (⟨0, 0⟩ : Point) (⟨3, 2⟩ : Point)).open_set,
        z.cost = n.cost → Point.cmp z.position n.position ≠ .gt)) ∧
    (∀ S1 n rest, navStep map4x3 convFree () ⟨3, 2⟩
        (initNav ⟨0, 0⟩ ⟨3, 2⟩) = .cont S1 →
      popMax (initNav (⟨0, 0⟩ : Point) (⟨3, 2⟩ : Point)).open_set =
        some (n, rest) →
      ∀ z ∈ S1.open_set, n.cost ≤ z.cost)) :=
  ⟨NavReach.init,
    c3_priority_is_g map4x3 convFree () ⟨0, 0⟩ ⟨3, 2⟩ _ NavReach.init⟩

/-- C9 witness: the statement instantiated on a concrete 1-by-2 map. -/
theorem c9_index_aliases_next_row_witness :
    (mapC9.offset = ⟨0, 0⟩ ∧ mapC9.tiles.length = mapC9.width * mapC9.height ∧
        1 ≤ mapC9.width ∧ 0 + 2 ≤ mapC9.height) ∧
      (mapC9.in_bounds ⟨(mapC9.width : Int), ((0 : Nat) : Int)⟩ = false ∧
        mapC9.in_bounds ⟨0, ((0 : Nat) : Int) + 1⟩ = true ∧
        mapC9.get? ⟨(mapC9.width : Int), ((0 : Nat) : Int)⟩ =
          mapC9.get? ⟨0, ((0 : Nat) : Int) + 1⟩ ∧
        ∃ t, mapC9.get? ⟨(mapC9.width : Int), ((0 : Nat) : Int)⟩ = some t) :=
  ⟨⟨rfl, rfl, by decide, by decide⟩,
    c9_index_aliases_next_row mapC9 0 rfl rfl (by decide) (by decide)⟩

end Aoclib
